import Mathlib

/-!
Verification of the repetition-collapse guard (`src/vllm_repguard_plugin.py`).

The core of the repository is the class `RepetitionGuard`: a per-stream
repetition detector holding a fixed-capacity ring buffer of recently
emitted token identifiers plus scalar counters.  Each call to
`new_token(token_id)` writes the token into the ring buffer and runs two
checks (a consecutive-run check and a periodic n-gram check), returning
`True` when either fires.

Shallow embedding notes:
* Python integers are embedded as `Int` (tokens) and `Nat` (counters,
  sizes, indices).  An absent token (`None`) is `Option.none`.
* The Python ring buffer is a list of fixed length `BUFFER_SIZE`,
  zero-initialised; `list[i] = v` is `List.set`, reading is `List.getD`.
* Python computes wrap-around positions as `x & MASK` with
  `MASK = BUFFER_SIZE - 1` and `BUFFER_SIZE = 2^e`.  On Python's
  arbitrary-precision two's-complement integers, `x & (2^e - 1)` equals
  the mathematically non-negative remainder `x mod 2^e`, for negative
  `x` as well; it is embedded as `Int.emod` (whose result is
  non-negative for a positive modulus).  The theorem
  `land_mask_eq_mod` below substantiates this for natural `x`.
* The class-level configuration attributes (read once from the
  environment at class-creation time) are gathered in a `Config` value
  threaded through every operation.
-/

/-- Configuration of the guard: the five class attributes of
`RepetitionGuard`, resolved once per process.  Field names follow the
source. -/
structure Config where
  BUFFER_SIZE : Nat
  MAX_TOKEN_REP : Nat
  MIN_GRAM_REP : Nat
  MIN_NGRAM_LEN : Nat
  MAX_NGRAM_LEN : Nat
deriving DecidableEq, Repr

/-- The constraints the specification places on a configuration:
`buffer_size` a power of two (hence positive), the three thresholds
positive, and `1 ≤ min_ngram_len ≤ max_ngram_len`. -/
def Config.Valid (cfg : Config) : Prop :=
  (∃ e, cfg.BUFFER_SIZE = 2 ^ e) ∧ 0 < cfg.MAX_TOKEN_REP ∧ 0 < cfg.MIN_GRAM_REP ∧
    1 ≤ cfg.MIN_NGRAM_LEN ∧ cfg.MIN_NGRAM_LEN ≤ cfg.MAX_NGRAM_LEN

/-- Error message of `validate_buffer_size` (verbatim from the source). -/
def povMsg : String := "BUFFER_SIZE must be a power of 2 and greater than 0."

/-- `validate_buffer_size` from the source: raises `ValueError` unless
`value > 0 and (value & (value - 1) == 0)`, otherwise returns the value
unchanged.  Raising is embedded as `Except.error`.  (In Python a
negative `int(value)` also fails, via the short-circuiting positivity
conjunct, so the `Nat` domain is faithful.) -/
def validate_buffer_size (value : Nat) : Except String Nat :=
  if 0 < value ∧ value &&& (value - 1) = 0 then Except.ok value
  else Except.error povMsg

/-- Wrap-around slot computation: the embedding of `i & MASK` for the
possibly negative Python expression `i` (see the header comment). -/
def wrapPos (size : Nat) (i : Int) : Nat := (i % (size : Int)).toNat

/-- Read of `hist[i & MASK]` for a possibly negative index expression
`i`. -/
def readAt (size : Nat) (hist : List Int) (i : Int) : Int :=
  hist.getD (wrapPos size i) 0

/-- Inner loop `for j in range(1, reps)` of the n-gram check, for one
offset `k`: compares `x` with the token `j*p` further back from `base`
(`base` is `idx - k`), short-circuiting at the first mismatch exactly
like the `break` in the source.  Returns the list of ring positions it
read (in order) together with the `ok` outcome for this offset. -/
def jScan (size : Nat) (hist : List Int) (base : Int) (x : Int) (p : Nat) :
    List Nat → List Nat × Bool
  | [] => ([], true)
  | j :: js =>
    let pos := wrapPos size (base - (j : Int) * (p : Int))
    if x = hist.getD pos 0 then
      let r := jScan size hist base x p js
      (pos :: r.1, r.2)
    else ([pos], false)

/-- Middle loop `for k in range(1, p + 1)` of the n-gram check: reads
`x = hist[(idx - k) & MASK]` and runs the inner loop, short-circuiting
at the first failing offset (`if not ok: break`). -/
def kScan (size : Nat) (hist : List Int) (idx : Int) (p reps : Nat) :
    List Nat → List Nat × Bool
  | [] => ([], true)
  | k :: ks =>
    let xpos := wrapPos size (idx - (k : Int))
    let x := hist.getD xpos 0
    let rj := jScan size hist (idx - (k : Int)) x p (List.range' 1 (reps - 1))
    if rj.2 then
      let rk := kScan size hist idx p reps ks
      (xpos :: rj.1 ++ rk.1, rk.2)
    else (xpos :: rj.1, false)

/-- Outer loop `for p in range(MIN_NGRAM_LEN, MAX_NGRAM_LEN + 1)` of the
n-gram check, with `reps = max(max_rep // p, min_rep)`; returns `true`
as soon as some period `p` survives all comparisons. -/
def pScan (cfg : Config) (hist : List Int) (idx : Int) : List Nat → List Nat × Bool
  | [] => ([], false)
  | p :: ps =>
    let reps := max (cfg.MAX_TOKEN_REP / p) cfg.MIN_GRAM_REP
    let rk := kScan cfg.BUFFER_SIZE hist idx p reps (List.range' 1 p)
    if rk.2 then (rk.1, true)
    else
      let rp := pScan cfg hist idx ps
      (rk.1 ++ rp.1, rp.2)

/-- The full n-gram repetition detection of `new_token` (the reads it
performs, and its outcome), on the post-write history and post-increment
index. -/
def ngramScan (cfg : Config) (hist : List Int) (idx : Nat) : List Nat × Bool :=
  pScan cfg hist (idx : Int)
    (List.range' cfg.MIN_NGRAM_LEN (cfg.MAX_NGRAM_LEN + 1 - cfg.MIN_NGRAM_LEN))

/-- Outcome of the n-gram check alone. -/
def ngramTriggered (cfg : Config) (hist : List Int) (idx : Nat) : Bool :=
  (ngramScan cfg hist idx).2

/-- The mutable state of one `RepetitionGuard` instance (its
`__slots__`).  Field names follow the source (without the leading
underscore). -/
structure RepetitionGuard where
  history : List Int
  index : Nat
  max_history_index : Nat
  consecutive_token_run_count : Nat
deriving DecidableEq, Repr

/-- `RepetitionGuard.__init__`: zero-filled ring buffer, zero indices,
run counter 1. -/
def RepetitionGuard.init (cfg : Config) : RepetitionGuard :=
  ⟨List.replicate cfg.BUFFER_SIZE 0, 0, 0, 1⟩

/-- History after the ingest step `hist[idx] = token_id`. -/
def postHist (g : RepetitionGuard) (tok : Int) : List Int :=
  g.history.set g.index tok

/-- Index after the ingest step `idx = (idx + 1) & mask`. -/
def postIdx (cfg : Config) (g : RepetitionGuard) : Nat :=
  (g.index + 1) % cfg.BUFFER_SIZE

/-- Saturating length update: `if mhi < BUFFER_SIZE: mhi += 1`. -/
def postMh (cfg : Config) (g : RepetitionGuard) : Nat :=
  if g.max_history_index < cfg.BUFFER_SIZE then g.max_history_index + 1
  else g.max_history_index

/-- The token the run check compares against: `hist[(idx - 2) & mask]`
on the post-write history and post-increment index. -/
def prevTok (cfg : Config) (g : RepetitionGuard) (tok : Int) : Int :=
  readAt cfg.BUFFER_SIZE (postHist g tok) ((postIdx cfg g : Int) - 2)

/-- Condition of the run check:
`self._max_history_index > 1 and hist[(idx - 2) & mask] == token_id`
(evaluated after the ingest step, as in the source). -/
def runHit (cfg : Config) (g : RepetitionGuard) (tok : Int) : Bool :=
  decide (1 < postMh cfg g) && decide (prevTok cfg g tok = tok)

/-- Run counter after the call: incremented on a hit, else reset to 1. -/
def postRun (cfg : Config) (g : RepetitionGuard) (tok : Int) : Nat :=
  if runHit cfg g tok then g.consecutive_token_run_count + 1 else 1

/-- The consecutive-run check reports a trigger:
the run hit *and* `self._consecutive_token_run_count >= MAX_TOKEN_REP`
after the increment. -/
def runTriggered (cfg : Config) (g : RepetitionGuard) (tok : Int) : Bool :=
  runHit cfg g tok && decide (cfg.MAX_TOKEN_REP ≤ postRun cfg g tok)

/-- `RepetitionGuard.new_token`: the full observe step.  `None` is a
no-op returning `False`; otherwise the token is ingested, the run check
may return `True` early, the history-length gate may return `False`
early, and otherwise the n-gram check decides.  In every non-`None`
branch the state has already been fully updated (the source mutates
before any `return`). -/
def RepetitionGuard.new_token (cfg : Config) (g : RepetitionGuard)
    (token_id : Option Int) : Bool × RepetitionGuard :=
  match token_id with
  | none => (false, g)
  | some tok =>
    let g' : RepetitionGuard :=
      ⟨postHist g tok, postIdx cfg g, postMh cfg g, postRun cfg g tok⟩
    if runTriggered cfg g tok then (true, g')
    else if postMh cfg g < cfg.MAX_TOKEN_REP then (false, g')
    else (ngramTriggered cfg (postHist g tok) (postIdx cfg g), g')

/-- The ring positions `new_token` reads, in evaluation order: the run
check's `hist[(idx - 2) & mask]` when `max_history_index > 1` (Python's
`and` short-circuits), then — only if neither the run check returned
early nor the history-length gate stopped the call — the n-gram check's
reads. -/
def observeReads (cfg : Config) (g : RepetitionGuard) (token_id : Option Int) :
    List Nat :=
  match token_id with
  | none => []
  | some tok =>
    let runReads :=
      if 1 < postMh cfg g then
        [wrapPos cfg.BUFFER_SIZE ((postIdx cfg g : Int) - 2)]
      else []
    if runTriggered cfg g tok then runReads
    else if postMh cfg g < cfg.MAX_TOKEN_REP then runReads
    else runReads ++ (ngramScan cfg (postHist g tok) (postIdx cfg g)).1

/-- Feed a list of (present) tokens into a guard, keeping the final
state. -/
def feed (cfg : Config) (g : RepetitionGuard) : List Int → RepetitionGuard
  | [] => g
  | t :: ts => feed cfg (RepetitionGuard.new_token cfg g (some t)).2 ts

/-- Feed a list of (present) tokens into a guard, collecting each
call's boolean result. -/
def triggers (cfg : Config) (g : RepetitionGuard) : List Int → List Bool
  | [] => []
  | t :: ts =>
    (RepetitionGuard.new_token cfg g (some t)).1 ::
      triggers cfg (RepetitionGuard.new_token cfg g (some t)).2 ts

/-- Specification-level view of the ring buffer: the value the guard
reads `k` steps (`k ≥ 1`) behind its write index, after the token list
`ts` has been fed from a fresh guard.  The distance first wraps into
`[1, size]`; within that range, position `k'` holds the `k'`-th-from-
last token when at least `k'` tokens were fed, and the zero sentinel
otherwise. -/
def backVal (size : Nat) (ts : List Int) (k : Nat) : Int :=
  let k' := (k - 1) % size + 1
  if k' ≤ ts.length then ts.getD (ts.length - k') 0 else 0

/-- Length of the maximal constant prefix of a list. -/
def headRun : List Int → Nat
  | [] => 0
  | [_] => 1
  | x :: y :: rest => if x = y then headRun (y :: rest) + 1 else 1

/-- Length of the maximal constant suffix of a list (the abstract value
of the guard's run counter, for `size ≥ 2`). -/
def suffixRun (ts : List Int) : Nat := headRun ts.reverse

/-! ### Basic arithmetic helpers -/

theorem wrapPos_lt (size : Nat) (hs : 0 < size) (i : Int) : wrapPos size i < size := by
  have hnz : (size : Int) ≠ 0 := by exact_mod_cast hs.ne'
  have h1 : 0 ≤ i % (size : Int) := Int.emod_nonneg i hnz
  have h2 : i % (size : Int) < size := Int.emod_lt_of_pos i (by exact_mod_cast hs)
  exact (Int.toNat_lt h1).mpr h2

theorem emod_add_cancel (m x y : Int) : (x % m + y) % m = (x + y) % m := by
  conv_lhs => rw [Int.add_emod, Int.emod_emod_of_dvd x dvd_rfl, ← Int.add_emod]

theorem emod_sub_cancel (m x y : Int) : (x % m - y) % m = (x - y) % m := by
  have h := emod_add_cancel m x (-y)
  rw [← sub_eq_add_neg, ← sub_eq_add_neg] at h
  exact h

/-- Wrap-around distances reduce modulo the buffer size: reading `k`
steps back is reading `(k - 1) % size + 1` steps back. -/
theorem emod_dist_reduce (size : Nat) (a : Int) (k : Nat) (hk : 1 ≤ k) :
    (a - (k : Int)) % (size : Int) =
      (a - (((k - 1) % size + 1 : Nat) : Int)) % (size : Int) := by
  have hdiv := Nat.mod_add_div (k - 1) size
  set m := (k - 1) % size with hm
  set q := (k - 1) / size with hq
  have h1 : (k : Int) = ((m + 1 : Nat) : Int) + (size : Int) * (q : Int) := by
    have hk' : (m + 1 + size * q : Nat) = k := by omega
    rw [← hk']; push_cast; ring
  rw [h1]
  have h2 : a - (((m + 1 : Nat) : Int) + (size : Int) * (q : Int)) =
      (a - ((m + 1 : Nat) : Int)) + (size : Int) * (-(q : Int)) := by ring
  rw [h2, Int.add_mul_emod_self_left]

theorem backVal_reduce (size : Nat) (ts : List Int) (k : Nat) :
    backVal size ts k = backVal size ts ((k - 1) % size + 1) := by
  simp only [backVal]
  have : ((k - 1) % size + 1 - 1) % size = (k - 1) % size := by
    simp [Nat.mod_mod_of_dvd]
  rw [this]

/-! ### List helpers -/

theorem getD_set_eq_ite (l : List Int) (i j : Nat) (v : Int) :
    (l.set i v).getD j 0 = if i = j ∧ j < l.length then v else l.getD j 0 := by
  rcases Nat.decEq i j with h | h
  · -- i ≠ j
    rw [List.getD_eq_getElem?_getD, List.getElem?_set_ne h, ← List.getD_eq_getElem?_getD]
    simp [h]
  · subst h
    by_cases hl : i < l.length
    · rw [List.getD_eq_getElem?_getD, List.getElem?_set_self hl]
      simp [hl]
    · rw [List.set_eq_of_length_le (Nat.le_of_not_lt hl)]
      simp [hl]

theorem getD_replicate_zero (n s : Nat) : (List.replicate n (0 : Int)).getD s 0 = 0 := by
  rw [List.getD_eq_getElem?_getD, List.getElem?_replicate]
  split <;> rfl

/-! ### Structural lemmas about `new_token`, `feed` and `triggers` -/

theorem new_token_none (cfg : Config) (g : RepetitionGuard) :
    RepetitionGuard.new_token cfg g none = (false, g) := rfl

theorem new_token_snd (cfg : Config) (g : RepetitionGuard) (t : Int) :
    (RepetitionGuard.new_token cfg g (some t)).2 =
      ⟨postHist g t, postIdx cfg g, postMh cfg g, postRun cfg g t⟩ := by
  simp only [RepetitionGuard.new_token]
  split
  · rfl
  · split <;> rfl

theorem new_token_fst (cfg : Config) (g : RepetitionGuard) (t : Int) :
    (RepetitionGuard.new_token cfg g (some t)).1 =
      (runTriggered cfg g t ||
        (decide (cfg.MAX_TOKEN_REP ≤ postMh cfg g) &&
          ngramTriggered cfg (postHist g t) (postIdx cfg g))) := by
  simp only [RepetitionGuard.new_token]
  cases h : runTriggered cfg g t with
  | true => simp [h]
  | false =>
    simp only [h, if_false, Bool.false_or]
    by_cases h2 : postMh cfg g < cfg.MAX_TOKEN_REP
    · simp [h2, Nat.not_le_of_lt h2]
    · simp [h2, Nat.le_of_not_lt h2]

theorem feed_append (cfg : Config) (g : RepetitionGuard) (l1 l2 : List Int) :
    feed cfg g (l1 ++ l2) = feed cfg (feed cfg g l1) l2 := by
  induction l1 generalizing g with
  | nil => rfl
  | cons t ts ih => simp [feed, ih]

theorem feed_concat (cfg : Config) (g : RepetitionGuard) (ts : List Int) (t : Int) :
    feed cfg g (ts ++ [t]) = (RepetitionGuard.new_token cfg (feed cfg g ts) (some t)).2 := by
  rw [feed_append]; rfl

theorem triggers_append (cfg : Config) (g : RepetitionGuard) (l1 l2 : List Int) :
    triggers cfg g (l1 ++ l2) = triggers cfg g l1 ++ triggers cfg (feed cfg g l1) l2 := by
  induction l1 generalizing g with
  | nil => rfl
  | cons t ts ih => simp [triggers, feed, ih]

/-! ### Suffix-run lemmas -/

theorem headRun_cons (x : Int) (l : List Int) :
    headRun (x :: l) = if l.head? = some x then headRun l + 1 else 1 := by
  cases l with
  | nil => simp [headRun]
  | cons y rest =>
    simp only [headRun, List.head?_cons]
    by_cases h : x = y
    · subst h; simp
    · have h' : ¬ y = x := fun hyx => h hyx.symm
      simp [h, h']

theorem headRun_pos (l : List Int) (h : l ≠ []) : 1 ≤ headRun l := by
  cases l with
  | nil => exact absurd rfl h
  | cons x rest => rw [headRun_cons]; split <;> omega

theorem headRun_le_length (l : List Int) : headRun l ≤ l.length := by
  induction l with
  | nil => simp [headRun]
  | cons x rest ih =>
    rw [headRun_cons]
    simp only [List.length_cons]
    split <;> omega

theorem suffixRun_concat (ts : List Int) (t : Int) :
    suffixRun (ts ++ [t]) = if ts.getLast? = some t then suffixRun ts + 1 else 1 := by
  simp only [suffixRun, List.reverse_append, List.reverse_cons, List.reverse_nil,
    List.nil_append, List.singleton_append]
  rw [headRun_cons, List.head?_reverse]

theorem suffixRun_pos (ts : List Int) (h : ts ≠ []) : 1 ≤ suffixRun ts := by
  apply headRun_pos
  simpa using h

/-! ### The ring-buffer invariant

After feeding a token list `ts` into a fresh guard, the state is fully
characterised by `ts`: the write index is `|ts| mod size`, the saturating
history length is `min |ts| size`, the run counter is the length of the
maximal constant suffix of `ts` (for `size ≥ 2`), every back-read of the
ring yields `backVal`, and the never-written slots still hold the zero
sentinel. -/

def GuardInv (cfg : Config) (ts : List Int) (g : RepetitionGuard) : Prop :=
  g.history.length = cfg.BUFFER_SIZE ∧
  g.index = ts.length % cfg.BUFFER_SIZE ∧
  g.max_history_index = min ts.length cfg.BUFFER_SIZE ∧
  (2 ≤ cfg.BUFFER_SIZE → g.consecutive_token_run_count = max 1 (suffixRun ts)) ∧
  (∀ s : Nat, min ts.length cfg.BUFFER_SIZE ≤ s → g.history.getD s 0 = 0) ∧
  (∀ k : Nat, 1 ≤ k →
    readAt cfg.BUFFER_SIZE g.history ((g.index : Int) - (k : Int)) =
      backVal cfg.BUFFER_SIZE ts k)

theorem wrapPos_dist_reduce (size : Nat) (a : Int) (k : Nat) (hk : 1 ≤ k) :
    wrapPos size (a - (k : Int)) =
      wrapPos size (a - (((k - 1) % size + 1 : Nat) : Int)) := by
  simp only [wrapPos]
  rw [emod_dist_reduce size a k hk]

theorem wrapPos_postIdx_sub (cfg : Config) (g : RepetitionGuard) (d : Int) :
    wrapPos cfg.BUFFER_SIZE ((postIdx cfg g : Int) - d) =
      wrapPos cfg.BUFFER_SIZE ((g.index : Int) + 1 - d) := by
  simp only [wrapPos, postIdx]
  congr 1
  push_cast
  rw [emod_sub_cancel]

theorem wrapPos_natCast_self (size : Nat) (a : Nat) (ha : a < size) :
    wrapPos size (a : Int) = a := by
  simp only [wrapPos]
  rw [Int.emod_eq_of_lt (Int.natCast_nonneg a) (by exact_mod_cast ha), Int.toNat_natCast]

/-- The post-write, post-increment ring reads of one `new_token` call are
the `backVal`s of the extended token list. -/
theorem read_step (cfg : Config) (hs : 0 < cfg.BUFFER_SIZE) (ts : List Int)
    (g : RepetitionGuard)
    (hlen : g.history.length = cfg.BUFFER_SIZE)
    (hidx : g.index = ts.length % cfg.BUFFER_SIZE)
    (hread : ∀ k : Nat, 1 ≤ k →
      readAt cfg.BUFFER_SIZE g.history ((g.index : Int) - (k : Int)) =
        backVal cfg.BUFFER_SIZE ts k)
    (t : Int) :
    ∀ k : Nat, 1 ≤ k →
      readAt cfg.BUFFER_SIZE (postHist g t) ((postIdx cfg g : Int) - (k : Int)) =
        backVal cfg.BUFFER_SIZE (ts ++ [t]) k := by
  have hidx_lt : g.index < cfg.BUFFER_SIZE := by rw [hidx]; exact Nat.mod_lt _ hs
  have main : ∀ k' : Nat, 1 ≤ k' → k' ≤ cfg.BUFFER_SIZE →
      readAt cfg.BUFFER_SIZE (postHist g t) ((postIdx cfg g : Int) - (k' : Int)) =
        backVal cfg.BUFFER_SIZE (ts ++ [t]) k' := by
    intro k' hk1 hk2
    rcases Nat.lt_or_ge 1 k' with hgt | hle
    · -- 2 ≤ k' ≤ size : an untouched slot, delegate to the old history
      set d : Nat := k' - 1 with hd
      have hd1 : 1 ≤ d := by omega
      have hdlt : d < cfg.BUFFER_SIZE := by omega
      have harg : (postIdx cfg g : Int) - (k' : Int) =
          (postIdx cfg g : Int) - ((d : Int) + 1) := by
        have : (k' : Int) = (d : Int) + 1 := by omega
        rw [this]
      rw [readAt, harg]
      have hpos : wrapPos cfg.BUFFER_SIZE ((postIdx cfg g : Int) - ((d : Int) + 1)) =
          wrapPos cfg.BUFFER_SIZE ((g.index : Int) - (d : Int)) := by
        rw [show (postIdx cfg g : Int) - ((d : Int) + 1) =
            (postIdx cfg g : Int) - ((d + 1 : Nat) : Int) by push_cast; ring,
          wrapPos_postIdx_sub]
        congr 1
        push_cast
        ring
      rw [hpos]
      -- the read slot differs from the freshly written one
      have hne : g.index ≠ wrapPos cfg.BUFFER_SIZE ((g.index : Int) - (d : Int)) := by
        intro heq
        have hnn : (0 : Int) ≤ ((g.index : Int) - (d : Int)) % (cfg.BUFFER_SIZE : Int) :=
          Int.emod_nonneg _ (by exact_mod_cast hs.ne')
        have hcast : ((g.index : Int) - (d : Int)) % (cfg.BUFFER_SIZE : Int) =
            (g.index : Int) := by
          have := congrArg (fun n : Nat => (n : Int)) heq
          simp only [wrapPos] at this
          rw [Int.toNat_of_nonneg hnn] at this
          exact this.symm
        have hself : (g.index : Int) % (cfg.BUFFER_SIZE : Int) = (g.index : Int) :=
          Int.emod_eq_of_lt (Int.natCast_nonneg _) (by exact_mod_cast hidx_lt)
        have hdvd : (cfg.BUFFER_SIZE : Int) ∣ ((g.index : Int) - (d : Int) - (g.index : Int)) := by
          apply Int.dvd_of_emod_eq_zero
          rw [← Int.emod_eq_emod_iff_emod_sub_eq_zero, hcast, hself]
        have hdvd2 : (cfg.BUFFER_SIZE : Int) ∣ ((d : Int)) := by
          have : (g.index : Int) - (d : Int) - (g.index : Int) = -(d : Int) := by ring
          rw [this] at hdvd
          exact (dvd_neg).mp hdvd
        have : cfg.BUFFER_SIZE ∣ d := Int.natCast_dvd_natCast.mp hdvd2
        have := Nat.le_of_dvd (by omega) this
        omega
      have hset : (postHist g t).getD (wrapPos cfg.BUFFER_SIZE ((g.index : Int) - (d : Int))) 0 =
          g.history.getD (wrapPos cfg.BUFFER_SIZE ((g.index : Int) - (d : Int))) 0 := by
        rw [postHist, getD_set_eq_ite]
        simp [hne]
      rw [hset]
      have hold := hread d hd1
      rw [readAt] at hold
      rw [hold]
      -- finally, `backVal` of the extension agrees with `backVal` of `ts` at `d`
      simp only [backVal, List.length_append, List.length_singleton]
      have e1 : (k' - 1) % cfg.BUFFER_SIZE + 1 = k' := by
        rw [Nat.mod_eq_of_lt (by omega)]; omega
      have e2 : (d - 1) % cfg.BUFFER_SIZE + 1 = d := by
        rw [Nat.mod_eq_of_lt (by omega)]; omega
      rw [e1, e2]
      by_cases hcase : k' ≤ ts.length + 1
      · rw [if_pos hcase, if_pos (by omega)]
        have hlt : ts.length + 1 - k' < ts.length := by omega
        rw [List.getD_append _ _ _ _ (by omega)]
        congr 1
        omega
      · rw [if_neg hcase, if_neg (by omega)]
    · -- k' = 1 : the freshly written slot
      have hk' : k' = 1 := by omega
      subst hk'
      rw [readAt, wrapPos_postIdx_sub]
      simp only [Nat.cast_one]
      have hpos : wrapPos cfg.BUFFER_SIZE ((g.index : Int) + 1 - 1) = g.index := by
        rw [show (g.index : Int) + 1 - 1 = (g.index : Int) by ring]
        exact wrapPos_natCast_self _ _ hidx_lt
      rw [hpos, postHist, getD_set_eq_ite]
      rw [if_pos ⟨rfl, by omega⟩]
      simp only [backVal, List.length_append, List.length_singleton]
      have e1 : (1 - 1) % cfg.BUFFER_SIZE + 1 = 1 := by simp
      rw [e1, if_pos (by omega)]
      rw [List.getD_append_right _ _ _ _ (by omega)]
      simp
  intro k hk
  have hred : (k - 1) % cfg.BUFFER_SIZE + 1 ≤ cfg.BUFFER_SIZE := by
    have := Nat.mod_lt (k - 1) hs
    omega
  rw [readAt, wrapPos_dist_reduce _ _ _ hk, ← readAt, backVal_reduce]
  exact main _ (by omega) hred

theorem guardInv_step (cfg : Config) (hs : 0 < cfg.BUFFER_SIZE) (ts : List Int)
    (g : RepetitionGuard) (h : GuardInv cfg ts g) (t : Int) :
    GuardInv cfg (ts ++ [t]) (RepetitionGuard.new_token cfg g (some t)).2 := by
  obtain ⟨hlen, hidx, hmh, hrun, hsent, hread⟩ := h
  rw [new_token_snd]
  have hidx_lt : g.index < cfg.BUFFER_SIZE := by rw [hidx]; exact Nat.mod_lt _ hs
  have hread' := read_step cfg hs ts g hlen hidx hread t
  have hmh' : postMh cfg g = min (ts.length + 1) cfg.BUFFER_SIZE := by
    rw [postMh, hmh]
    rcases Nat.lt_or_ge ts.length cfg.BUFFER_SIZE with hlt | hge
    · rw [if_pos (by omega)]; omega
    · rw [if_neg (by omega)]; omega
  refine ⟨?_, ?_, ?_, ?_, ?_, ?_⟩
  · simpa [postHist] using hlen
  · simp only [postIdx, hidx, List.length_append, List.length_singleton]
    exact Nat.mod_add_mod ts.length cfg.BUFFER_SIZE 1
  · simpa [List.length_append] using hmh'
  · -- the run counter tracks the maximal constant suffix (for size ≥ 2)
    intro hs2
    have hrun2 := hrun hs2
    show postRun cfg g t = _
    have hprev : prevTok cfg g t = backVal cfg.BUFFER_SIZE (ts ++ [t]) 2 := hread' 2 (by omega)
    have hb2 : backVal cfg.BUFFER_SIZE (ts ++ [t]) 2 =
        if 2 ≤ ts.length + 1 then ts.getD (ts.length - 1) 0 else 0 := by
      simp only [backVal, List.length_append, List.length_singleton]
      have e1 : (2 - 1) % cfg.BUFFER_SIZE + 1 = 2 := by
        rw [Nat.mod_eq_of_lt (by omega)]
      rw [e1]
      by_cases hc : 2 ≤ ts.length + 1
      · rw [if_pos hc, if_pos hc]
        rw [List.getD_append _ _ _ _ (by omega)]
        congr 1
      · rw [if_neg hc, if_neg hc]
    rcases List.eq_nil_or_concat ts with hnil | ⟨ts₀, u, hconc⟩
    · -- empty history: the run check cannot hit
      subst hnil
      have : postMh cfg g = 1 := by rw [hmh']; simp only [List.length_nil]; omega
      have hhit : runHit cfg g t = false := by
        rw [runHit, this]
        simp
      rw [postRun, hhit]
      simp [suffixRun, headRun]
    · -- nonempty history: the hit condition is `last = t`
      have hne : ts ≠ [] := by rw [hconc]; simp
      have hlenpos : 1 ≤ ts.length := List.length_pos.mpr hne
      have hgate : 1 < postMh cfg g := by rw [hmh']; omega
      have hlast : ts.getLast? = some (ts.getD (ts.length - 1) 0) := by
        rw [List.getLast?_eq_getElem?, List.getD_eq_getElem?_getD]
        cases hx : ts[ts.length - 1]? with
        | none =>
          exfalso
          have := List.getElem?_eq_none_iff.mp hx
          omega
        | some v => rfl
      by_cases hhit : ts.getD (ts.length - 1) 0 = t
      · have hrhit : runHit cfg g t = true := by
          rw [runHit, hprev, hb2, if_pos (by omega)]
          simp only [Bool.and_eq_true, decide_eq_true_eq]
          exact ⟨hgate, hhit⟩
        have hsfx : suffixRun (ts ++ [t]) = suffixRun ts + 1 := by
          rw [suffixRun_concat, if_pos (by rw [hlast, hhit])]
        have hsp : 1 ≤ suffixRun ts := suffixRun_pos ts hne
        rw [postRun, hrhit, if_pos rfl, hrun2, hsfx]
        omega
      · have hrhit : runHit cfg g t = false := by
          rw [runHit, hprev, hb2, if_pos (by omega)]
          simp only [Bool.and_eq_false_iff, decide_eq_false_iff_not]
          right
          exact hhit
        have hsfx : suffixRun (ts ++ [t]) = 1 := by
          rw [suffixRun_concat, if_neg ?_]
          rw [hlast]
          intro hcon
          exact hhit (Option.some_inj.mp hcon)
        rw [postRun, hrhit, if_neg (by simp), hsfx]
        omega
  · -- sentinel slots stay zero
    intro s hsge
    simp only [List.length_append, List.length_singleton] at hsge
    rw [postHist, getD_set_eq_ite]
    have hnotset : ¬ (g.index = s ∧ s < g.history.length) := by
      rintro ⟨hgs, _⟩
      rcases Nat.lt_or_ge ts.length cfg.BUFFER_SIZE with hlt | hge
      · have : g.index = ts.length := by rw [hidx, Nat.mod_eq_of_lt hlt]
        omega
      · omega
    rw [if_neg hnotset]
    exact hsent s (by omega)
  · exact hread'

theorem guardInv_feed (cfg : Config) (hs : 0 < cfg.BUFFER_SIZE) (ts : List Int) :
    GuardInv cfg ts (feed cfg (RepetitionGuard.init cfg) ts) := by
  induction ts using List.reverseRecOn with
  | nil =>
    refine ⟨?_, ?_, ?_, ?_, ?_, ?_⟩
    · simp [feed, RepetitionGuard.init]
    · simp [feed, RepetitionGuard.init]
    · simp [feed, RepetitionGuard.init]
    · intro _
      simp [feed, RepetitionGuard.init, suffixRun, headRun]
    · intro s _
      show (List.replicate cfg.BUFFER_SIZE (0 : Int)).getD s 0 = 0
      exact getD_replicate_zero _ _
    · intro k hk
      show (List.replicate cfg.BUFFER_SIZE (0 : Int)).getD _ 0 = _
      rw [getD_replicate_zero]
      simp only [backVal, List.length_nil]
      rw [if_neg (by omega)]
  | append_singleton ts t ih =>
    rw [feed_concat]
    exact guardInv_step cfg hs ts _ ih t

/-! Projections of the invariant for a fed fresh guard. -/

theorem feed_index (cfg : Config) (hs : 0 < cfg.BUFFER_SIZE) (ts : List Int) :
    (feed cfg (RepetitionGuard.init cfg) ts).index = ts.length % cfg.BUFFER_SIZE :=
  (guardInv_feed cfg hs ts).2.1

theorem feed_length (cfg : Config) (hs : 0 < cfg.BUFFER_SIZE) (ts : List Int) :
    (feed cfg (RepetitionGuard.init cfg) ts).history.length = cfg.BUFFER_SIZE :=
  (guardInv_feed cfg hs ts).1

theorem feed_mh (cfg : Config) (hs : 0 < cfg.BUFFER_SIZE) (ts : List Int) :
    (feed cfg (RepetitionGuard.init cfg) ts).max_history_index =
      min ts.length cfg.BUFFER_SIZE :=
  (guardInv_feed cfg hs ts).2.2.1

theorem feed_run (cfg : Config) (hs2 : 2 ≤ cfg.BUFFER_SIZE) (ts : List Int) :
    (feed cfg (RepetitionGuard.init cfg) ts).consecutive_token_run_count =
      max 1 (suffixRun ts) :=
  (guardInv_feed cfg (by omega) ts).2.2.2.1 hs2

theorem feed_sentinel (cfg : Config) (hs : 0 < cfg.BUFFER_SIZE) (ts : List Int)
    (s : Nat) (hge : min ts.length cfg.BUFFER_SIZE ≤ s) :
    (feed cfg (RepetitionGuard.init cfg) ts).history.getD s 0 = 0 :=
  (guardInv_feed cfg hs ts).2.2.2.2.1 s hge

theorem feed_read (cfg : Config) (hs : 0 < cfg.BUFFER_SIZE) (ts : List Int)
    (k : Nat) (hk : 1 ≤ k) :
    readAt cfg.BUFFER_SIZE (feed cfg (RepetitionGuard.init cfg) ts).history
        (((feed cfg (RepetitionGuard.init cfg) ts).index : Int) - (k : Int)) =
      backVal cfg.BUFFER_SIZE ts k :=
  (guardInv_feed cfg hs ts).2.2.2.2.2 k hk

/-- Reads on the in-call (post-write, post-increment) data of the next
`new_token` call are `backVal`s of the extended token list. -/
theorem feed_read_post (cfg : Config) (hs : 0 < cfg.BUFFER_SIZE) (ts : List Int)
    (t : Int) (k : Nat) (hk : 1 ≤ k) :
    readAt cfg.BUFFER_SIZE (postHist (feed cfg (RepetitionGuard.init cfg) ts) t)
        ((postIdx cfg (feed cfg (RepetitionGuard.init cfg) ts) : Int) - (k : Int)) =
      backVal cfg.BUFFER_SIZE (ts ++ [t]) k := by
  have h := guardInv_feed cfg hs (ts ++ [t])
  rw [feed_concat, new_token_snd] at h
  exact h.2.2.2.2.2 k hk

/-- The run-check comparison token, over a fed fresh guard. -/
theorem feed_prevTok (cfg : Config) (hs : 0 < cfg.BUFFER_SIZE) (ts : List Int) (t : Int) :
    prevTok cfg (feed cfg (RepetitionGuard.init cfg) ts) t =
      backVal cfg.BUFFER_SIZE (ts ++ [t]) 2 := by
  rw [prevTok]
  have := feed_read_post cfg hs ts t 2 (by omega)
  simpa using this

/-! ### Further `backVal` and trace lemmas -/

/-- For distances within one buffer revolution, `backVal` needs no
wrap-around reduction. -/
theorem backVal_small (size : Nat) (ts : List Int) (d : Nat) (h1 : 1 ≤ d)
    (hd : d ≤ size) :
    backVal size ts d = if d ≤ ts.length then ts.getD (ts.length - d) 0 else 0 := by
  simp only [backVal]
  rw [Nat.mod_eq_of_lt (by omega)]
  have : d - 1 + 1 = d := by omega
  rw [this]

/-- Once a full window of `size` tokens ends the list, `backVal` only
depends on that window. -/
theorem backVal_append_window (size : Nat) (hs : 0 < size) (pre win : List Int)
    (hwin : win.length = size) (d : Nat) :
    backVal size (pre ++ win) d = backVal size win d := by
  simp only [backVal, List.length_append, hwin]
  have hk2 : (d - 1) % size + 1 ≤ size := by
    have := Nat.mod_lt (d - 1) hs
    omega
  rw [if_pos (by omega), if_pos (by omega)]
  rw [List.getD_append_right _ _ _ _ (by omega)]
  congr 1
  omega

/-- The trigger trace is the per-prefix call results. -/
theorem triggers_eq_map (cfg : Config) (g : RepetitionGuard) (ts : List Int) :
    triggers cfg g ts = (List.range ts.length).map
      (fun i => (RepetitionGuard.new_token cfg (feed cfg g (ts.take i)) (some (ts.getD i 0))).1) := by
  induction ts generalizing g with
  | nil => rfl
  | cons t rest ih =>
    simp only [triggers, List.length_cons, List.range_succ_eq_map, List.map_cons,
      List.map_map]
    congr 1
    rw [ih]
    apply List.map_congr_left
    intro i _
    simp [feed, List.take_succ_cons]

/-! ### Congruence of the n-gram scan under equal back-reads

If two (history, index) pairs agree on every ring read up to distance
`D`, and every comparison distance of the scan is at most `D`, the scan
outcome coincides.  Used both for the wrap-around property (same
configuration, different prefixes) and for transferring results between
buffer sizes. -/

theorem jScan_snd_congr (sizeA sizeB : Nat) (hA hB : List Int) (iA iB : Int) (D : Nat)
    (H : ∀ d : Nat, 1 ≤ d → d ≤ D →
      readAt sizeA hA (iA - (d : Int)) = readAt sizeB hB (iB - (d : Int)))
    (x : Int) (p k : Nat) (hk : 1 ≤ k) :
    ∀ js : List Nat, (∀ j ∈ js, k + j * p ≤ D) →
      (jScan sizeA hA (iA - (k : Int)) x p js).2 =
        (jScan sizeB hB (iB - (k : Int)) x p js).2 := by
  intro js
  induction js with
  | nil => intro _; rfl
  | cons j js ih =>
    intro hjs
    have hval : hA.getD (wrapPos sizeA (iA - (k : Int) - (j : Int) * (p : Int))) 0 =
        hB.getD (wrapPos sizeB (iB - (k : Int) - (j : Int) * (p : Int))) 0 := by
      have harg : ∀ i : Int, i - (k : Int) - (j : Int) * (p : Int) =
          i - ((k + j * p : Nat) : Int) := by
        intro i; push_cast; ring
      rw [harg iA, harg iB]
      exact H (k + j * p) (by omega) (hjs j (List.mem_cons_self j js))
    simp only [jScan]
    rw [hval]
    by_cases hx : x = hB.getD (wrapPos sizeB (iB - (k : Int) - (j : Int) * (p : Int))) 0
    · rw [if_pos hx, if_pos hx]
      exact ih (fun j' hj' => hjs j' (List.mem_cons_of_mem j hj'))
    · rw [if_neg hx, if_neg hx]

theorem kScan_snd_congr (sizeA sizeB : Nat) (hA hB : List Int) (iA iB : Int) (D : Nat)
    (H : ∀ d : Nat, 1 ≤ d → d ≤ D →
      readAt sizeA hA (iA - (d : Int)) = readAt sizeB hB (iB - (d : Int)))
    (p reps : Nat) :
    ∀ ks : List Nat,
      (∀ k ∈ ks, 1 ≤ k ∧ k ≤ D ∧ ∀ j ∈ List.range' 1 (reps - 1), k + j * p ≤ D) →
      (kScan sizeA hA iA p reps ks).2 = (kScan sizeB hB iB p reps ks).2 := by
  intro ks
  induction ks with
  | nil => intro _; rfl
  | cons k ks ih =>
    intro hks
    obtain ⟨hk1, hkD, hkj⟩ := hks k (List.mem_cons_self k ks)
    have hx : hA.getD (wrapPos sizeA (iA - (k : Int))) 0 =
        hB.getD (wrapPos sizeB (iB - (k : Int))) 0 := H k hk1 hkD
    have hj := jScan_snd_congr sizeA sizeB hA hB iA iB D H
      (hA.getD (wrapPos sizeA (iA - (k : Int))) 0) p k hk1
      (List.range' 1 (reps - 1)) hkj
    simp only [kScan]
    rw [hx] at hj ⊢
    rw [hj]
    by_cases hok : (jScan sizeB hB (iB - (k : Int))
        (hB.getD (wrapPos sizeB (iB - (k : Int))) 0) p (List.range' 1 (reps - 1))).2 = true
    · rw [hok]
      simp only [if_true]
      exact ih (fun k' hk' => hks k' (List.mem_cons_of_mem k hk'))
    · rw [Bool.not_eq_true] at hok
      rw [hok]
      simp only [Bool.false_eq_true, if_false]

theorem pScan_snd_congr (cfgA cfgB : Config)
    (hm : cfgA.MAX_TOKEN_REP = cfgB.MAX_TOKEN_REP)
    (hg : cfgA.MIN_GRAM_REP = cfgB.MIN_GRAM_REP)
    (hg1 : 1 ≤ cfgA.MIN_GRAM_REP)
    (hA hB : List Int) (iA iB : Int) (D : Nat)
    (H : ∀ d : Nat, 1 ≤ d → d ≤ D →
      readAt cfgA.BUFFER_SIZE hA (iA - (d : Int)) =
        readAt cfgB.BUFFER_SIZE hB (iB - (d : Int))) :
    ∀ ps : List Nat,
      (∀ p ∈ ps, max (cfgA.MAX_TOKEN_REP / p) cfgA.MIN_GRAM_REP * p ≤ D) →
      (pScan cfgA hA iA ps).2 = (pScan cfgB hB iB ps).2 := by
  intro ps
  induction ps with
  | nil => intro _; rfl
  | cons p ps ih =>
    intro hps
    have hpD := hps p (List.mem_cons_self p ps)
    set reps := max (cfgA.MAX_TOKEN_REP / p) cfgA.MIN_GRAM_REP with hreps
    have hreps1 : 1 ≤ reps := le_trans hg1 (le_max_right _ _)
    have hp_le : p ≤ reps * p :=
      le_mul_of_one_le_left (Nat.zero_le p) hreps1
    have hsum : p + (reps - 1) * p = reps * p := by
      rw [Nat.sub_one_mul]
      omega
    have hcond : ∀ k ∈ List.range' 1 p,
        1 ≤ k ∧ k ≤ D ∧ ∀ j ∈ List.range' 1 (reps - 1), k + j * p ≤ D := by
      intro k hkmem
      obtain ⟨hk1, hk2⟩ := List.mem_range'_1.mp hkmem
      have hkp : k ≤ p := by omega
      refine ⟨hk1, by omega, ?_⟩
      intro j hjmem
      obtain ⟨hj1, hj2⟩ := List.mem_range'_1.mp hjmem
      have hjp : j * p ≤ (reps - 1) * p := Nat.mul_le_mul_right p (by omega)
      omega
    have hk := kScan_snd_congr cfgA.BUFFER_SIZE cfgB.BUFFER_SIZE hA hB iA iB D H p reps
      (List.range' 1 p) hcond
    simp only [pScan]
    rw [← hm, ← hg, ← hreps, hk]
    by_cases hok : (kScan cfgB.BUFFER_SIZE hB iB p reps (List.range' 1 p)).2 = true
    · rw [hok]
      simp only [if_true]
    · rw [Bool.not_eq_true] at hok
      rw [hok]
      simp only [Bool.false_eq_true, if_false]
      exact ih (fun p' hp' => hps p' (List.mem_cons_of_mem p hp'))

theorem ngramTriggered_congr (cfgA cfgB : Config)
    (hm : cfgA.MAX_TOKEN_REP = cfgB.MAX_TOKEN_REP)
    (hg : cfgA.MIN_GRAM_REP = cfgB.MIN_GRAM_REP)
    (hlo : cfgA.MIN_NGRAM_LEN = cfgB.MIN_NGRAM_LEN)
    (hhi : cfgA.MAX_NGRAM_LEN = cfgB.MAX_NGRAM_LEN)
    (hg1 : 1 ≤ cfgA.MIN_GRAM_REP)
    (hA hB : List Int) (iA iB : Nat) (D : Nat)
    (H : ∀ d : Nat, 1 ≤ d → d ≤ D →
      readAt cfgA.BUFFER_SIZE hA ((iA : Int) - (d : Int)) =
        readAt cfgB.BUFFER_SIZE hB ((iB : Int) - (d : Int)))
    (hD : ∀ p, cfgA.MIN_NGRAM_LEN ≤ p → p ≤ cfgA.MAX_NGRAM_LEN →
      max (cfgA.MAX_TOKEN_REP / p) cfgA.MIN_GRAM_REP * p ≤ D) :
    ngramTriggered cfgA hA iA = ngramTriggered cfgB hB iB := by
  simp only [ngramTriggered, ngramScan]
  rw [← hlo, ← hhi]
  apply pScan_snd_congr cfgA cfgB hm hg hg1 hA hB iA iB D H
  intro p hp
  obtain ⟨h1, h2⟩ := List.mem_range'_1.mp hp
  exact hD p h1 (by omega)

theorem feed_postMh (cfg : Config) (hs : 0 < cfg.BUFFER_SIZE) (ts : List Int) :
    postMh cfg (feed cfg (RepetitionGuard.init cfg) ts) =
      min (ts.length + 1) cfg.BUFFER_SIZE := by
  rw [postMh, feed_mh cfg hs]
  rcases Nat.lt_or_ge ts.length cfg.BUFFER_SIZE with h | h
  · rw [if_pos (by omega)]; omega
  · rw [if_neg (by omega)]; omega

/-- Once the history covers a full window (the last `size - 1` fed
tokens plus the incoming one), every in-call ring read is a function of
that window alone. -/
theorem feed_read_post_window (cfg : Config) (hs : 0 < cfg.BUFFER_SIZE)
    (pre w : List Int) (t : Int) (hw : w.length + 1 = cfg.BUFFER_SIZE)
    (d : Nat) (hd : 1 ≤ d) :
    readAt cfg.BUFFER_SIZE (postHist (feed cfg (RepetitionGuard.init cfg) (pre ++ w)) t)
        ((postIdx cfg (feed cfg (RepetitionGuard.init cfg) (pre ++ w)) : Int) - (d : Int)) =
      backVal cfg.BUFFER_SIZE (w ++ [t]) d := by
  rw [feed_read_post cfg hs (pre ++ w) t d hd]
  have hassoc : pre ++ w ++ [t] = pre ++ (w ++ [t]) := by simp
  rw [hassoc]
  exact backVal_append_window _ hs pre (w ++ [t])
    (by simp only [List.length_append, List.length_singleton]; omega) d

/-- A single call transfers between two configurations that differ only
in buffer size, as long as the history fed so far and every scan
distance fit inside both buffers. -/
theorem call_transfer (szA szB mtr mgr lo hi : Nat)
    (hszA : 2 ≤ szA) (hszB : 2 ≤ szB) (hmgr : 1 ≤ mgr)
    (hD : ∀ p, lo ≤ p → p ≤ hi → max (mtr / p) mgr * p ≤ min szA szB)
    (ts : List Int) (t : Int) (hlen : ts.length + 1 ≤ min szA szB) :
    (RepetitionGuard.new_token ⟨szA, mtr, mgr, lo, hi⟩
        (feed ⟨szA, mtr, mgr, lo, hi⟩
          (RepetitionGuard.init ⟨szA, mtr, mgr, lo, hi⟩) ts) (some t)).1 =
      (RepetitionGuard.new_token ⟨szB, mtr, mgr, lo, hi⟩
        (feed ⟨szB, mtr, mgr, lo, hi⟩
          (RepetitionGuard.init ⟨szB, mtr, mgr, lo, hi⟩) ts) (some t)).1 ∧
    runTriggered ⟨szA, mtr, mgr, lo, hi⟩
        (feed ⟨szA, mtr, mgr, lo, hi⟩
          (RepetitionGuard.init ⟨szA, mtr, mgr, lo, hi⟩) ts) t =
      runTriggered ⟨szB, mtr, mgr, lo, hi⟩
        (feed ⟨szB, mtr, mgr, lo, hi⟩
          (RepetitionGuard.init ⟨szB, mtr, mgr, lo, hi⟩) ts) t := by
  set cfgA : Config := ⟨szA, mtr, mgr, lo, hi⟩ with hcfgA
  set cfgB : Config := ⟨szB, mtr, mgr, lo, hi⟩ with hcfgB
  have hsA : 0 < cfgA.BUFFER_SIZE := by simp [hcfgA]; omega
  have hsB : 0 < cfgB.BUFFER_SIZE := by simp [hcfgB]; omega
  set gA := feed cfgA (RepetitionGuard.init cfgA) ts with hgA
  set gB := feed cfgB (RepetitionGuard.init cfgB) ts with hgB
  have hmhA : postMh cfgA gA = ts.length + 1 := by
    rw [hgA, feed_postMh cfgA hsA]
    have : cfgA.BUFFER_SIZE = szA := rfl
    omega
  have hmhB : postMh cfgB gB = ts.length + 1 := by
    rw [hgB, feed_postMh cfgB hsB]
    have : cfgB.BUFFER_SIZE = szB := rfl
    omega
  have hprev : prevTok cfgA gA t = prevTok cfgB gB t := by
    rw [hgA, hgB, feed_prevTok cfgA hsA, feed_prevTok cfgB hsB]
    rw [backVal_small cfgA.BUFFER_SIZE _ 2 (by omega) (by show 2 ≤ szA; omega),
      backVal_small cfgB.BUFFER_SIZE _ 2 (by omega) (by show 2 ≤ szB; omega)]
  have hhit : runHit cfgA gA t = runHit cfgB gB t := by
    rw [runHit, runHit, hmhA, hmhB, hprev]
  have hrc : gA.consecutive_token_run_count = gB.consecutive_token_run_count := by
    rw [hgA, hgB, feed_run cfgA (by show 2 ≤ szA; omega) ts,
      feed_run cfgB (by show 2 ≤ szB; omega) ts]
  have hpr : postRun cfgA gA t = postRun cfgB gB t := by
    rw [postRun, postRun, hhit, hrc]
  have hrt : runTriggered cfgA gA t = runTriggered cfgB gB t := by
    rw [runTriggered, runTriggered, hhit, hpr]
  refine ⟨?_, hrt⟩
  rw [new_token_fst, new_token_fst, hrt, hmhA, hmhB]
  have hcong : ngramTriggered cfgA (postHist gA t) (postIdx cfgA gA) =
      ngramTriggered cfgB (postHist gB t) (postIdx cfgB gB) := by
    apply ngramTriggered_congr cfgA cfgB rfl rfl rfl rfl hmgr _ _ _ _ (min szA szB)
    · intro d hd1 hdD
      rw [hgA, hgB, feed_read_post cfgA hsA ts t d hd1, feed_read_post cfgB hsB ts t d hd1]
      rw [backVal_small cfgA.BUFFER_SIZE _ d hd1 (by show d ≤ szA; omega),
        backVal_small cfgB.BUFFER_SIZE _ d hd1 (by show d ≤ szB; omega)]
    · intro p hlo hhi
      exact hD p hlo hhi
  rw [hcong]

/-- Whole trigger traces transfer between two configurations differing
only in buffer size, when the sequence and all scan distances fit. -/
theorem triggers_transfer (szA szB mtr mgr lo hi : Nat)
    (hszA : 2 ≤ szA) (hszB : 2 ≤ szB) (hmgr : 1 ≤ mgr)
    (hD : ∀ p, lo ≤ p → p ≤ hi → max (mtr / p) mgr * p ≤ min szA szB)
    (ts : List Int) (hlen : ts.length ≤ min szA szB) :
    triggers ⟨szA, mtr, mgr, lo, hi⟩ (RepetitionGuard.init ⟨szA, mtr, mgr, lo, hi⟩) ts =
      triggers ⟨szB, mtr, mgr, lo, hi⟩ (RepetitionGuard.init ⟨szB, mtr, mgr, lo, hi⟩) ts := by
  rw [triggers_eq_map, triggers_eq_map]
  apply List.map_congr_left
  intro i hmem
  have hi' : i < ts.length := List.mem_range.mp hmem
  have hlen' : (ts.take i).length + 1 ≤ min szA szB := by
    rw [List.length_take]
    omega
  exact (call_transfer szA szB mtr mgr lo hi hszA hszB hmgr hD (ts.take i)
    (ts.getD i 0) hlen').1

/-! ### Claim C5 -/

/-- Claim C5: observing an absent (`None`) token returns `false` and
leaves the whole guard state — `seen_count` (`max_history_index`),
`write_index` (`index`), `run_length` (`consecutive_token_run_count`)
and every ring-buffer slot — exactly as it was. -/
theorem c5_observe_none_noop (cfg : Config) (g : RepetitionGuard) :
    RepetitionGuard.new_token cfg g none = (false, g) := rfl

/-! ### Claim C3 -/

/-- The 3-token cycle `[7, 9, 11]` repeated `n` times. -/
def c3seq (n : Nat) : List Int := (List.replicate n [7, 9, 11]).flatten

/-- Claim C3: with `min_ngram_len = 3`, `max_ngram_len = 12`,
`max_token_rep = 32`, `min_gram_rep = 5` and any power-of-two buffer of
size at least the sequence length (33), feeding the cycle `[7, 9, 11]`
eleven times makes some call return `true`, and it does so via the
n-gram check (the call that first fires, on token 32, has a false
run-check outcome), whereas feeding the cycle only six times (18
tokens) makes every call return `false`. -/
theorem c3_periodic_literal (size : Nat) (hpow : ∃ e, size = 2 ^ e)
    (hbig : 33 ≤ size) :
    ((triggers (⟨size, 32, 5, 3, 12⟩ : Config)
        (RepetitionGuard.init ⟨size, 32, 5, 3, 12⟩) (c3seq 11)).any (fun b => b) = true) ∧
    ((triggers (⟨size, 32, 5, 3, 12⟩ : Config)
        (RepetitionGuard.init ⟨size, 32, 5, 3, 12⟩) (c3seq 6)).any (fun b => b) = false) ∧
    (RepetitionGuard.new_token (⟨size, 32, 5, 3, 12⟩ : Config)
        (feed ⟨size, 32, 5, 3, 12⟩
          (RepetitionGuard.init ⟨size, 32, 5, 3, 12⟩) ((c3seq 11).take 31)) (some 9)).1 = true ∧
    runTriggered (⟨size, 32, 5, 3, 12⟩ : Config)
        (feed ⟨size, 32, 5, 3, 12⟩
          (RepetitionGuard.init ⟨size, 32, 5, 3, 12⟩) ((c3seq 11).take 31)) 9 = false := by
  obtain ⟨e, rfl⟩ := hpow
  have h64 : 64 ≤ 2 ^ e := by
    by_contra hlt
    push_neg at hlt
    have he : e ≤ 5 := by
      by_contra he6
      push_neg at he6
      have h6 : (2 : Nat) ^ 6 ≤ 2 ^ e := Nat.pow_le_pow_right (by norm_num) (by omega)
      norm_num at h6
      omega
    have h5 : (2 : Nat) ^ e ≤ 2 ^ 5 := Nat.pow_le_pow_right (by norm_num) he
    norm_num at h5
    omega
  have hD : ∀ p, 3 ≤ p → p ≤ 12 → max (32 / p) 5 * p ≤ min (2 ^ e) 64 := by
    intro p h3 h12
    have hmin : min (2 ^ e) 64 = 64 := by omega
    rw [hmin]
    interval_cases p <;> decide
  have hlen11 : (c3seq 11).length = 33 := by decide
  have hlen6 : (c3seq 6).length = 18 := by decide
  have hlen31 : ((c3seq 11).take 31).length = 31 := by decide
  have ht1 := triggers_transfer (2 ^ e) 64 32 5 3 12 (by omega) (by omega) (by omega)
    hD (c3seq 11) (by omega)
  have ht2 := triggers_transfer (2 ^ e) 64 32 5 3 12 (by omega) (by omega) (by omega)
    hD (c3seq 6) (by omega)
  have hc := call_transfer (2 ^ e) 64 32 5 3 12 (by omega) (by omega) (by omega)
    hD ((c3seq 11).take 31) 9 (by omega)
  refine ⟨?_, ?_, ?_, ?_⟩
  · rw [ht1]; decide
  · rw [ht2]; decide
  · rw [hc.1]; decide
  · rw [hc.2]; decide

/-! ### Claim C4 -/

/-- Claim C4: as long as fewer than `max_token_rep` tokens have been
observed in total, a call's outcome is exactly the consecutive-run
check's outcome — the history-length gate stops the call before the
n-gram check, so the n-gram check never fires. -/
theorem c4_insufficient_history_gate (cfg : Config) (hv : cfg.Valid)
    (ts : List Int) (t : Int) (hfew : ts.length + 1 < cfg.MAX_TOKEN_REP) :
    (RepetitionGuard.new_token cfg (feed cfg (RepetitionGuard.init cfg) ts) (some t)).1 =
      runTriggered cfg (feed cfg (RepetitionGuard.init cfg) ts) t := by
  obtain ⟨⟨e, hsz⟩, hmtr, _, _, _⟩ := hv
  have hs : 0 < cfg.BUFFER_SIZE := by rw [hsz]; exact Nat.pow_pos (by norm_num)
  rw [new_token_fst]
  have hmh := feed_postMh cfg hs ts
  have hgate : decide (cfg.MAX_TOKEN_REP ≤ postMh cfg (feed cfg (RepetitionGuard.init cfg) ts))
      = false := by
    rw [decide_eq_false_iff_not, hmh]
    omega
  rw [hgate]
  simp

theorem c4_insufficient_history_gate_witness :
    (RepetitionGuard.new_token (⟨4, 3, 2, 3, 12⟩ : Config)
        (feed ⟨4, 3, 2, 3, 12⟩ (RepetitionGuard.init ⟨4, 3, 2, 3, 12⟩) [1]) (some 2)).1 =
      runTriggered (⟨4, 3, 2, 3, 12⟩ : Config)
        (feed ⟨4, 3, 2, 3, 12⟩ (RepetitionGuard.init ⟨4, 3, 2, 3, 12⟩) [1]) 2 :=
  c4_insufficient_history_gate ⟨4, 3, 2, 3, 12⟩
    ⟨⟨2, rfl⟩, by decide, by decide, by decide, by decide⟩ [1] 2 (by decide)

theorem c3_periodic_literal_witness :
    ((triggers (⟨64, 32, 5, 3, 12⟩ : Config)
        (RepetitionGuard.init ⟨64, 32, 5, 3, 12⟩) (c3seq 11)).any (fun b => b) = true) ∧
    ((triggers (⟨64, 32, 5, 3, 12⟩ : Config)
        (RepetitionGuard.init ⟨64, 32, 5, 3, 12⟩) (c3seq 6)).any (fun b => b) = false) ∧
    (RepetitionGuard.new_token (⟨64, 32, 5, 3, 12⟩ : Config)
        (feed ⟨64, 32, 5, 3, 12⟩
          (RepetitionGuard.init ⟨64, 32, 5, 3, 12⟩) ((c3seq 11).take 31)) (some 9)).1 = true ∧
    runTriggered (⟨64, 32, 5, 3, 12⟩ : Config)
        (feed ⟨64, 32, 5, 3, 12⟩
          (RepetitionGuard.init ⟨64, 32, 5, 3, 12⟩) ((c3seq 11).take 31)) 9 = false :=
  c3_periodic_literal 64 ⟨6, rfl⟩ (by omega)

/-! ### Claim C8 -/

/-- The bit trick of the source: masking with `2^e - 1` is reduction
modulo `2^e` (stated for naturals; Python's two's-complement `&` extends
this to negatives, embedded as `Int.emod`). -/
theorem land_mask_eq_mod (x e : Nat) : x &&& (2 ^ e - 1) = x % 2 ^ e := by
  apply Nat.eq_of_testBit_eq
  intro i
  rw [Nat.testBit_land, Nat.testBit_two_pow_sub_one, Nat.testBit_mod_two_pow]
  rw [Bool.and_comm]

/-- `v > 0 and v & (v - 1) == 0` characterises exactly the powers of
two. -/
theorem pos_land_pred_eq_zero_iff (v : Nat) :
    (0 < v ∧ v &&& (v - 1) = 0) ↔ ∃ k, v = 2 ^ k := by
  constructor
  · rintro ⟨hpos, hland⟩
    by_contra hnp
    push_neg at hnp
    set h := Nat.log 2 v with hh
    have h1 : 2 ^ h ≤ v := Nat.pow_log_le_self 2 (by omega)
    have h2 : v < 2 ^ (h + 1) := Nat.lt_pow_succ_log_self (by norm_num) v
    have hne : v ≠ 2 ^ h := hnp h
    have hpow1 : (2 : Nat) ^ (h + 1) = 2 * 2 ^ h := by rw [pow_succ]; ring
    have hdiv_v : v / 2 ^ h = 1 := Nat.div_eq_of_lt_le (by omega) (by omega)
    have hdiv_v1 : (v - 1) / 2 ^ h = 1 := Nat.div_eq_of_lt_le (by omega) (by omega)
    have hbit_v : v.testBit h = true := by
      rw [Nat.testBit_to_div_mod, hdiv_v]
      rfl
    have hbit_v1 : (v - 1).testBit h = true := by
      rw [Nat.testBit_to_div_mod, hdiv_v1]
      rfl
    have hcontra : (v &&& (v - 1)).testBit h = true := by
      rw [Nat.testBit_land, hbit_v, hbit_v1]
      rfl
    rw [hland, Nat.zero_testBit] at hcontra
    exact Bool.false_ne_true hcontra
  · rintro ⟨k, rfl⟩
    refine ⟨Nat.pow_pos (by norm_num), ?_⟩
    apply Nat.eq_of_testBit_eq
    intro i
    rw [Nat.testBit_land, Nat.zero_testBit]
    rcases Nat.decEq i k with hik | hik
    · rw [Nat.testBit_two_pow_of_ne (fun hki => hik hki.symm)]
      rfl
    · subst hik
      have hp : 0 < (2 : Nat) ^ i := Nat.pow_pos (by norm_num)
      rw [show ((2 : Nat) ^ i - 1).testBit i = false from
        Nat.testBit_lt_two_pow (by omega), Bool.and_false]

/-- Claim C8: buffer-size validation succeeds — returning the value
unchanged — exactly when the supplied value is a positive power of two,
and raises the `ValueError` otherwise; the source runs it in the class
body (`BUFFER_SIZE = validate_buffer_size(...)`), i.e. at
configuration/class-creation time, before any guard instance exists or
processes a token. -/
theorem c8_validate_buffer_size (v : Nat) :
    (validate_buffer_size v = Except.ok v ↔ ∃ k, v = 2 ^ k) ∧
    (validate_buffer_size v = Except.ok v ∨
      validate_buffer_size v = Except.error povMsg) := by
  by_cases hcond : 0 < v ∧ v &&& (v - 1) = 0
  · have hok : validate_buffer_size v = Except.ok v := by
      rw [validate_buffer_size, if_pos hcond]
    exact ⟨⟨fun _ => (pos_land_pred_eq_zero_iff v).mp hcond, fun _ => hok⟩, Or.inl hok⟩
  · have herr : validate_buffer_size v = Except.error povMsg := by
      rw [validate_buffer_size, if_neg hcond]
    refine ⟨⟨?_, ?_⟩, Or.inr herr⟩
    · intro hok
      rw [herr] at hok
      exact absurd hok (by simp)
    · intro hex
      exact absurd ((pos_land_pred_eq_zero_iff v).mpr hex) hcond

/-! ### Bounds on the positions read by a call -/

theorem jScan_pos_lt (size : Nat) (hs : 0 < size) (hist : List Int) (base : Int)
    (x : Int) (p : Nat) :
    ∀ js : List Nat, ∀ pos ∈ (jScan size hist base x p js).1, pos < size := by
  intro js
  induction js with
  | nil => intro pos hpos; simp [jScan] at hpos
  | cons j js ih =>
    intro pos hpos
    simp only [jScan] at hpos
    split at hpos
    · rcases List.mem_cons.mp hpos with h | h
      · subst h; exact wrapPos_lt size hs _
      · exact ih pos h
    · rcases List.mem_cons.mp hpos with h | h
      · subst h; exact wrapPos_lt size hs _
      · simp at h

theorem kScan_pos_lt (size : Nat) (hs : 0 < size) (hist : List Int) (idx : Int)
    (p reps : Nat) :
    ∀ ks : List Nat, ∀ pos ∈ (kScan size hist idx p reps ks).1, pos < size := by
  intro ks
  induction ks with
  | nil => intro pos hpos; simp [kScan] at hpos
  | cons k ks ih =>
    intro pos hpos
    simp only [kScan] at hpos
    split at hpos
    · rcases List.mem_cons.mp hpos with h | h
      · subst h; exact wrapPos_lt size hs _
      · rcases List.mem_append.mp h with h2 | h2
        · exact jScan_pos_lt size hs hist _ _ p _ pos h2
        · exact ih pos h2
    · rcases List.mem_cons.mp hpos with h | h
      · subst h; exact wrapPos_lt size hs _
      · exact jScan_pos_lt size hs hist _ _ p _ pos h

theorem pScan_pos_lt (cfg : Config) (hs : 0 < cfg.BUFFER_SIZE) (hist : List Int)
    (idx : Int) :
    ∀ ps : List Nat, ∀ pos ∈ (pScan cfg hist idx ps).1, pos < cfg.BUFFER_SIZE := by
  intro ps
  induction ps with
  | nil => intro pos hpos; simp [pScan] at hpos
  | cons p ps ih =>
    intro pos hpos
    simp only [pScan] at hpos
    split at hpos
    · exact kScan_pos_lt _ hs hist idx p _ _ pos hpos
    · rcases List.mem_append.mp hpos with h | h
      · exact kScan_pos_lt _ hs hist idx p _ _ pos h
      · exact ih pos h

theorem observeReads_lt (cfg : Config) (hs : 0 < cfg.BUFFER_SIZE)
    (g : RepetitionGuard) (t : Option Int) :
    ∀ pos ∈ observeReads cfg g t, pos < cfg.BUFFER_SIZE := by
  intro pos hpos
  rcases t with _ | tok
  · simp [observeReads] at hpos
  · simp only [observeReads] at hpos
    have hrun : ∀ q ∈ (if 1 < postMh cfg g then
        [wrapPos cfg.BUFFER_SIZE ((postIdx cfg g : Int) - 2)] else ([] : List Nat)),
        q < cfg.BUFFER_SIZE := by
      intro q hq
      split at hq
      · rcases List.mem_cons.mp hq with h | h
        · subst h; exact wrapPos_lt _ hs _
        · simp at h
      · simp at hq
    split at hpos
    · exact hrun pos hpos
    · split at hpos
      · exact hrun pos hpos
      · rcases List.mem_append.mp hpos with h | h
        · exact hrun pos h
        · exact pScan_pos_lt cfg hs _ _ _ pos h

/-! ### Claim C9 -/

/-- Claim C9: `observe` is total on every reachable state and every
input — an absent token is a defined no-op, any integer token of any
sign is accepted, and every ring-buffer access stays inside
`[0, buffer_size)`: all mask-computed read positions are in bounds, and
the write position (the state's `index`) is in bounds on a buffer of
full length, so no runtime error path exists. -/
theorem c9_observe_total (cfg : Config) (hv : cfg.Valid) (ts : List Int)
    (t : Option Int) :
    (∀ pos ∈ observeReads cfg (feed cfg (RepetitionGuard.init cfg) ts) t,
      pos < cfg.BUFFER_SIZE) ∧
    (feed cfg (RepetitionGuard.init cfg) ts).index < cfg.BUFFER_SIZE ∧
    (feed cfg (RepetitionGuard.init cfg) ts).history.length = cfg.BUFFER_SIZE := by
  obtain ⟨⟨e, hsz⟩, _, _, _, _⟩ := hv
  have hs : 0 < cfg.BUFFER_SIZE := by rw [hsz]; exact Nat.pow_pos (by norm_num)
  refine ⟨observeReads_lt cfg hs _ t, ?_, feed_length cfg hs ts⟩
  rw [feed_index cfg hs ts]
  exact Nat.mod_lt _ hs

theorem c9_observe_total_witness :
    (∀ pos ∈ observeReads (⟨4, 2, 2, 3, 12⟩ : Config)
        (feed ⟨4, 2, 2, 3, 12⟩ (RepetitionGuard.init ⟨4, 2, 2, 3, 12⟩) [1, 2]) (some (-5)),
      pos < 4) ∧
    (feed (⟨4, 2, 2, 3, 12⟩ : Config)
      (RepetitionGuard.init ⟨4, 2, 2, 3, 12⟩) [1, 2]).index < 4 ∧
    (feed (⟨4, 2, 2, 3, 12⟩ : Config)
      (RepetitionGuard.init ⟨4, 2, 2, 3, 12⟩) [1, 2]).history.length = 4 :=
  c9_observe_total ⟨4, 2, 2, 3, 12⟩
    ⟨⟨2, rfl⟩, by decide, by decide, by decide, by decide⟩ [1, 2] (some (-5))

/-! ### Claim C1 -/

theorem wrapPos_natCast (size : Nat) (m : Nat) :
    wrapPos size (m : Int) = m % size := by
  simp only [wrapPos]
  rw [show ((m : Int) % (size : Int)) = ((m % size : Nat) : Int) by push_cast; ring]
  rw [Int.toNat_natCast]

/-- Claim C1 (amended): every ring position a call reads is in bounds,
the positions at or beyond `min(seen, buffer_size)` still hold the zero
sentinel, and the consecutive-run check — when its history condition
`seen > 1` holds — reads only a position that a real token has
overwritten (a position below the post-ingest `seen` count).  The
n-gram check, however, is gated only by `seen_count ≥ max_token_rep`
and *can* read never-written sentinel positions (see the
counterexample), so the original claim holds for the run check but not
for the n-gram check. -/
theorem c1_sentinel_protection (cfg : Config) (hv : cfg.Valid) (ts : List Int)
    (t : Int) :
    (∀ pos ∈ observeReads cfg (feed cfg (RepetitionGuard.init cfg) ts) (some t),
      pos < cfg.BUFFER_SIZE) ∧
    (∀ s : Nat, min ts.length cfg.BUFFER_SIZE ≤ s →
      (feed cfg (RepetitionGuard.init cfg) ts).history.getD s 0 = 0) ∧
    (1 < postMh cfg (feed cfg (RepetitionGuard.init cfg) ts) →
      wrapPos cfg.BUFFER_SIZE
          ((postIdx cfg (feed cfg (RepetitionGuard.init cfg) ts) : Int) - 2) <
        postMh cfg (feed cfg (RepetitionGuard.init cfg) ts)) := by
  obtain ⟨⟨e, hsz⟩, _, _, _, _⟩ := hv
  have hs : 0 < cfg.BUFFER_SIZE := by rw [hsz]; exact Nat.pow_pos (by norm_num)
  refine ⟨observeReads_lt cfg hs _ (some t), feed_sentinel cfg hs ts, ?_⟩
  intro hgt
  have hmh := feed_postMh cfg hs ts
  rw [hmh] at hgt ⊢
  have hn1 : 1 ≤ ts.length ∧ 2 ≤ cfg.BUFFER_SIZE := by omega
  have hidx := feed_index cfg hs ts
  rw [show ((2 : Int)) = ((2 : Nat) : Int) by norm_num, wrapPos_postIdx_sub, hidx]
  have harg : ((ts.length % cfg.BUFFER_SIZE : Nat) : Int) + 1 - ((2 : Nat) : Int) =
      ((ts.length % cfg.BUFFER_SIZE : Nat) : Int) - ((1 : Nat) : Int) := by
    push_cast
    ring
  rw [harg]
  have hred : wrapPos cfg.BUFFER_SIZE
      (((ts.length % cfg.BUFFER_SIZE : Nat) : Int) - ((1 : Nat) : Int)) =
      (ts.length - 1) % cfg.BUFFER_SIZE := by
    simp only [wrapPos]
    rw [show ((ts.length % cfg.BUFFER_SIZE : Nat) : Int) =
        (ts.length : Int) % (cfg.BUFFER_SIZE : Int) by push_cast; ring]
    rw [emod_sub_cancel]
    rw [show (ts.length : Int) - ((1 : Nat) : Int) = ((ts.length - 1 : Nat) : Int) by
      push_cast [hn1.1]
      ring]
    rw [show ((ts.length - 1 : Nat) : Int) % (cfg.BUFFER_SIZE : Int) =
        (((ts.length - 1) % cfg.BUFFER_SIZE : Nat) : Int) by push_cast; ring]
    rw [Int.toNat_natCast]
  rw [hred]
  rcases Nat.lt_or_ge ts.length cfg.BUFFER_SIZE with hlt | hge
  · rw [Nat.mod_eq_of_lt (by omega)]
    omega
  · have := Nat.mod_lt (ts.length - 1) hs
    omega

theorem c1_sentinel_protection_witness :
    (∀ pos ∈ observeReads (⟨4, 2, 2, 3, 12⟩ : Config)
        (feed ⟨4, 2, 2, 3, 12⟩ (RepetitionGuard.init ⟨4, 2, 2, 3, 12⟩) [5, 6]) (some 7),
      pos < 4) ∧
    (∀ s : Nat, min ([5, 6] : List Int).length 4 ≤ s →
      (feed (⟨4, 2, 2, 3, 12⟩ : Config)
        (RepetitionGuard.init ⟨4, 2, 2, 3, 12⟩) [5, 6]).history.getD s 0 = 0) ∧
    (1 < postMh (⟨4, 2, 2, 3, 12⟩ : Config)
        (feed ⟨4, 2, 2, 3, 12⟩ (RepetitionGuard.init ⟨4, 2, 2, 3, 12⟩) [5, 6]) →
      wrapPos 4 ((postIdx (⟨4, 2, 2, 3, 12⟩ : Config)
          (feed ⟨4, 2, 2, 3, 12⟩ (RepetitionGuard.init ⟨4, 2, 2, 3, 12⟩) [5, 6]) : Int) - 2) <
        postMh (⟨4, 2, 2, 3, 12⟩ : Config)
          (feed ⟨4, 2, 2, 3, 12⟩ (RepetitionGuard.init ⟨4, 2, 2, 3, 12⟩) [5, 6])) :=
  c1_sentinel_protection ⟨4, 2, 2, 3, 12⟩
    ⟨⟨2, rfl⟩, by decide, by decide, by decide, by decide⟩ [5, 6] 7

/-- Claim C1 counterexample: with the valid configuration
`buffer_size = 16`, `max_token_rep = 8`, `min_gram_rep = 2`,
n-gram lengths 3..12, after feeding the 7 tokens `1..7` the call
observing token `8` passes the history-length gate (`seen = 8 ≥ 8`),
and its n-gram check reads ring position 15 — a position beyond the 8
slots that have ever been written, still holding the zero sentinel.
So the n-gram check does compare against never-overwritten sentinel
slots, refuting the claim as stated. -/
theorem c1_counterexample :
    ¬ (∀ pos ∈ observeReads (⟨16, 8, 2, 3, 12⟩ : Config)
        (feed ⟨16, 8, 2, 3, 12⟩ (RepetitionGuard.init ⟨16, 8, 2, 3, 12⟩)
          [1, 2, 3, 4, 5, 6, 7]) (some 8),
        pos < postMh (⟨16, 8, 2, 3, 12⟩ : Config)
          (feed ⟨16, 8, 2, 3, 12⟩ (RepetitionGuard.init ⟨16, 8, 2, 3, 12⟩)
            [1, 2, 3, 4, 5, 6, 7])) := by
  decide

/-! ### Claim C10 -/

theorem wrapPos_mod_cast_sub (size : Nat) (a : Nat) (d : Int) :
    wrapPos size (((a % size : Nat) : Int) - d) = wrapPos size ((a : Int) - d) := by
  simp only [wrapPos]
  congr 1
  rw [show ((a % size : Nat) : Int) = (a : Int) % (size : Int) by push_cast; ring]
  rw [emod_sub_cancel]

/-- One step of the re-trigger argument: a state whose run check fires
on `t` yields, after observing `t`, a state whose run check fires on
`t` again, and the call itself returns `true`. -/
theorem runTriggered_retrigger (cfg : Config) (g : RepetitionGuard)
    (hlen : g.history.length = cfg.BUFFER_SIZE) (hidx : g.index < cfg.BUFFER_SIZE)
    (hmhle : g.max_history_index ≤ cfg.BUFFER_SIZE)
    (t : Int) (hrt : runTriggered cfg g t = true) :
    (RepetitionGuard.new_token cfg g (some t)).1 = true ∧
    runTriggered cfg (RepetitionGuard.new_token cfg g (some t)).2 t = true ∧
    (RepetitionGuard.new_token cfg g (some t)).2.history.length = cfg.BUFFER_SIZE ∧
    (RepetitionGuard.new_token cfg g (some t)).2.index < cfg.BUFFER_SIZE ∧
    (RepetitionGuard.new_token cfg g (some t)).2.max_history_index ≤ cfg.BUFFER_SIZE := by
  have hsplit : runHit cfg g t = true ∧
      decide (cfg.MAX_TOKEN_REP ≤ postRun cfg g t) = true := by
    have h := hrt
    rw [runTriggered, Bool.and_eq_true] at h
    exact h
  have hhit : runHit cfg g t = true := hsplit.1
  have hthr : cfg.MAX_TOKEN_REP ≤ postRun cfg g t := decide_eq_true_eq.mp hsplit.2
  have hgt : 1 < postMh cfg g := by
    have h := hhit
    rw [runHit, Bool.and_eq_true] at h
    exact decide_eq_true_eq.mp h.1
  have hmh_le : postMh cfg g ≤ cfg.BUFFER_SIZE := by
    rw [postMh]
    split <;> omega
  have hs : 0 < cfg.BUFFER_SIZE := by omega
  have hres : (RepetitionGuard.new_token cfg g (some t)).1 = true := by
    rw [new_token_fst, hrt]
    rfl
  rw [new_token_snd]
  set g' : RepetitionGuard :=
    ⟨postHist g t, postIdx cfg g, postMh cfg g, postRun cfg g t⟩ with hg'
  have hidx' : postIdx cfg g < cfg.BUFFER_SIZE := Nat.mod_lt _ hs
  have hne : postIdx cfg g ≠ g.index := by
    rw [postIdx]
    intro heq
    rcases Nat.lt_or_ge (g.index + 1) cfg.BUFFER_SIZE with hlt | hge
    · rw [Nat.mod_eq_of_lt hlt] at heq
      omega
    · have hsz : g.index + 1 = cfg.BUFFER_SIZE := by omega
      rw [hsz, Nat.mod_self] at heq
      omega
  have hpos : wrapPos cfg.BUFFER_SIZE ((postIdx cfg g' : Int) - 2) = g.index := by
    show wrapPos cfg.BUFFER_SIZE
      ((((g'.index + 1) % cfg.BUFFER_SIZE : Nat) : Int) - 2) = g.index
    rw [wrapPos_mod_cast_sub]
    have e1 : ((g'.index + 1 : Nat) : Int) - 2 = ((g'.index : Nat) : Int) - 1 := by
      push_cast
      ring
    rw [e1]
    show wrapPos cfg.BUFFER_SIZE
      ((((g.index + 1) % cfg.BUFFER_SIZE : Nat) : Int) - 1) = g.index
    rw [wrapPos_mod_cast_sub]
    have e2 : ((g.index + 1 : Nat) : Int) - 1 = ((g.index : Nat) : Int) := by
      push_cast
      ring
    rw [e2]
    exact wrapPos_natCast_self _ _ hidx
  have hprev' : prevTok cfg g' t = t := by
    rw [prevTok, readAt, hpos]
    show ((postHist g t).set (postIdx cfg g) t).getD g.index 0 = t
    rw [getD_set_eq_ite, if_neg (fun hcon => hne hcon.1)]
    rw [postHist, getD_set_eq_ite, if_pos ⟨rfl, by omega⟩]
  have hmh2 : 1 < postMh cfg g' := by
    show 1 < (if postMh cfg g < cfg.BUFFER_SIZE then postMh cfg g + 1 else postMh cfg g)
    split <;> omega
  have hhit' : runHit cfg g' t = true := by
    rw [runHit, hprev']
    simp [hmh2]
  have hpr' : postRun cfg g' t = postRun cfg g t + 1 := by
    rw [postRun, hhit']
    rfl
  have hrt' : runTriggered cfg g' t = true := by
    rw [runTriggered, hhit', hpr']
    simp only [Bool.true_and, decide_eq_true_eq]
    omega
  refine ⟨hres, hrt', by simp [postHist, hlen], hidx', ?_⟩
  show (if g.max_history_index < cfg.BUFFER_SIZE then g.max_history_index + 1
    else g.max_history_index) ≤ cfg.BUFFER_SIZE
  split <;> omega

/-- Claim C10: the run counter is not reset when the run check fires;
once a call on a reachable state has its consecutive-run check
triggered for token `t`, every further call observing that same token
returns `true` (the run only keeps growing), for any number of further
calls. -/
theorem c10_retrigger_after_run_fire (cfg : Config) (hv : cfg.Valid)
    (ts : List Int) (t : Int) (m : Nat)
    (hrt : runTriggered cfg (feed cfg (RepetitionGuard.init cfg) ts) t = true) :
    ∀ r ∈ triggers cfg (feed cfg (RepetitionGuard.init cfg) ts)
      (List.replicate (m + 1) t), r = true := by
  obtain ⟨⟨e, hsz⟩, _, _, _, _⟩ := hv
  have hs : 0 < cfg.BUFFER_SIZE := by rw [hsz]; exact Nat.pow_pos (by norm_num)
  suffices h : ∀ m : Nat, ∀ g : RepetitionGuard,
      g.history.length = cfg.BUFFER_SIZE → g.index < cfg.BUFFER_SIZE →
      g.max_history_index ≤ cfg.BUFFER_SIZE → runTriggered cfg g t = true →
      ∀ r ∈ triggers cfg g (List.replicate (m + 1) t), r = true by
    refine h m _ (feed_length cfg hs ts) ?_ ?_ hrt
    · rw [feed_index cfg hs ts]
      exact Nat.mod_lt _ hs
    · rw [feed_mh cfg hs ts]
      omega
  intro m
  induction m with
  | zero =>
    intro g h1 h2 h3 h4 r hr
    simp only [List.replicate, triggers, List.mem_singleton] at hr
    rw [hr]
    exact (runTriggered_retrigger cfg g h1 h2 h3 t h4).1
  | succ m ih =>
    intro g h1 h2 h3 h4 r hr
    rw [List.replicate_succ] at hr
    rw [show triggers cfg g (t :: List.replicate (m + 1) t) =
      (RepetitionGuard.new_token cfg g (some t)).1 ::
        triggers cfg (RepetitionGuard.new_token cfg g (some t)).2
          (List.replicate (m + 1) t) from rfl] at hr
    rcases List.mem_cons.mp hr with hr | hr
    · rw [hr]
      exact (runTriggered_retrigger cfg g h1 h2 h3 t h4).1
    · obtain ⟨_, hrt', hlen', hidx', hmh'⟩ := runTriggered_retrigger cfg g h1 h2 h3 t h4
      exact ih _ hlen' hidx' hmh' hrt' r hr

theorem c10_retrigger_after_run_fire_witness :
    triggers (⟨4, 2, 2, 3, 12⟩ : Config)
      (feed ⟨4, 2, 2, 3, 12⟩ (RepetitionGuard.init ⟨4, 2, 2, 3, 12⟩) [5, 5])
      (List.replicate 3 5) = List.replicate 3 true := by
  have h := c10_retrigger_after_run_fire ⟨4, 2, 2, 3, 12⟩
    ⟨⟨2, rfl⟩, by decide, by decide, by decide, by decide⟩ [5, 5] 5 2 (by decide)
  exact (List.eq_replicate_of_mem h).trans (by decide)

/-! ### Claim C2 -/

theorem getD_replicate_lt (n s : Nat) (v : Int) (h : s < n) :
    (List.replicate n v).getD s 0 = v := by
  rw [List.getD_eq_getElem?_getD, List.getElem?_replicate, if_pos h]
  rfl

theorem headRun_replicate_append (j : Nat) (hj : 1 ≤ j) (b a : Int) (hab : b ≠ a) :
    headRun (List.replicate j b ++ [a]) = j := by
  induction j with
  | zero => omega
  | succ j ih =>
    rcases Nat.eq_zero_or_pos j with hj0 | hjpos
    · subst hj0
      show headRun (b :: ([] ++ [a])) = 1
      rw [List.nil_append, headRun_cons]
      simp only [List.head?_cons, Option.some_inj]
      rw [if_neg (fun h => hab h.symm)]
    · rw [List.replicate_succ, List.cons_append, headRun_cons]
      obtain ⟨j', rfl⟩ : ∃ j', j = j' + 1 := ⟨j - 1, by omega⟩
      rw [List.replicate_succ, List.cons_append, List.head?_cons]
      rw [if_pos rfl]
      rw [← List.cons_append, ← List.replicate_succ]
      rw [ih hjpos]

theorem suffixRun_cons_replicate (a b : Int) (hab : a ≠ b) (j : Nat) (hj : 1 ≤ j) :
    suffixRun (a :: List.replicate j b) = j := by
  rw [suffixRun, List.reverse_cons, List.reverse_replicate]
  exact headRun_replicate_append j hj b a (fun h => hab h.symm)

/-- Claim C2 (amended): for every valid configuration with
`buffer_size ≥ 2` and `max_token_rep ≥ 2`, feeding a fresh guard one
token `a` and then `i ≥ 1` copies of a different token `b`, the
*consecutive-run check* fires on the call observing the `i`-th `b`
exactly when `i ≥ max_token_rep` — at the `max_token_rep`-th occurrence
and never at an earlier one, and never with only `max_token_rep - 1`
occurrences — and whenever it fires the call returns `true`.  (The
original claim's "observe returns true ... never earlier" fails: the
full call can return `true` earlier via the n-gram check, see the
counterexample; only the run check has the stated boundary.) -/
theorem c2_run_boundary (cfg : Config) (hv : cfg.Valid)
    (hs2 : 2 ≤ cfg.BUFFER_SIZE) (hmtr2 : 2 ≤ cfg.MAX_TOKEN_REP)
    (a b : Int) (hab : a ≠ b) (i : Nat) (hi : 1 ≤ i) :
    (runTriggered cfg (feed cfg (RepetitionGuard.init cfg)
        (a :: List.replicate (i - 1) b)) b = true ↔ cfg.MAX_TOKEN_REP ≤ i) ∧
    (cfg.MAX_TOKEN_REP ≤ i →
      (RepetitionGuard.new_token cfg (feed cfg (RepetitionGuard.init cfg)
        (a :: List.replicate (i - 1) b)) (some b)).1 = true) := by
  have hs : 0 < cfg.BUFFER_SIZE := by omega
  set ts := a :: List.replicate (i - 1) b with hts
  have hlen : ts.length = i := by
    rw [hts, List.length_cons, List.length_replicate]
    omega
  have hprev := feed_prevTok cfg hs ts b
  have hb2 : backVal cfg.BUFFER_SIZE (ts ++ [b]) 2 = if i = 1 then a else b := by
    rw [backVal_small _ _ 2 (by omega) hs2]
    rw [if_pos (by rw [List.length_append, hlen]; simp; omega)]
    rw [List.length_append, hlen]
    have hidx : i + 1 - 2 = i - 1 := by omega
    rw [show (List.length [b]) = 1 from rfl, hidx]
    rw [List.getD_append _ _ _ _ (by omega)]
    by_cases h1 : i = 1
    · subst h1
      rw [if_pos rfl]
      rfl
    · rw [if_neg h1, hts]
      obtain ⟨i', rfl⟩ : ∃ i', i = i' + 2 := ⟨i - 2, by omega⟩
      show (a :: List.replicate (i' + 1) b).getD (i' + 1) 0 = b
      rw [List.getD_cons_succ]
      exact getD_replicate_lt _ _ _ (by omega)
  have hmh := feed_postMh cfg hs ts
  have hgate : 1 < postMh cfg (feed cfg (RepetitionGuard.init cfg) ts) := by
    rw [hmh, hlen]
    omega
  by_cases h1 : i = 1
  · subst h1
    have hhit : runHit cfg (feed cfg (RepetitionGuard.init cfg) ts) b = false := by
      rw [runHit, hprev, hb2, if_pos rfl]
      simp only [Bool.and_eq_false_iff, decide_eq_false_iff_not]
      right
      exact hab
    have hrt : runTriggered cfg (feed cfg (RepetitionGuard.init cfg) ts) b = false := by
      rw [runTriggered, hhit]
      rfl
    constructor
    · rw [hrt]
      constructor
      · intro h
        exact absurd h (by simp)
      · intro h
        omega
    · intro h
      omega
  · have hrunc := feed_run cfg hs2 ts
    have hsfx : suffixRun ts = i - 1 := by
      rw [hts]
      exact suffixRun_cons_replicate a b hab (i - 1) (by omega)
    have hhit : runHit cfg (feed cfg (RepetitionGuard.init cfg) ts) b = true := by
      rw [runHit, hprev, hb2, if_neg h1]
      simp [hgate]
    have hpr : postRun cfg (feed cfg (RepetitionGuard.init cfg) ts) b = i := by
      rw [postRun, hhit, if_pos rfl, hrunc, hsfx]
      omega
    have hrt : runTriggered cfg (feed cfg (RepetitionGuard.init cfg) ts) b =
        decide (cfg.MAX_TOKEN_REP ≤ i) := by
      rw [runTriggered, hhit, hpr]
      rfl
    constructor
    · rw [hrt]
      simp
    · intro h
      rw [new_token_fst, hrt, decide_eq_true h]
      rfl

theorem c2_run_boundary_witness :
    (runTriggered (⟨4, 2, 2, 3, 12⟩ : Config)
        (feed ⟨4, 2, 2, 3, 12⟩ (RepetitionGuard.init ⟨4, 2, 2, 3, 12⟩)
          ((1 : Int) :: List.replicate (2 - 1) 2)) 2 = true ↔ 2 ≤ 2) ∧
    (2 ≤ 2 →
      (RepetitionGuard.new_token (⟨4, 2, 2, 3, 12⟩ : Config)
        (feed ⟨4, 2, 2, 3, 12⟩ (RepetitionGuard.init ⟨4, 2, 2, 3, 12⟩)
          ((1 : Int) :: List.replicate (2 - 1) 2)) (some 2)).1 = true) :=
  c2_run_boundary ⟨4, 2, 2, 3, 12⟩
    ⟨⟨2, rfl⟩, by decide, by decide, by decide, by decide⟩ (by decide) (by decide)
    1 2 (by decide) 2 (by decide)

/-- Claim C2 counterexample: with the valid configuration
`buffer_size = 16`, `max_token_rep = 10`, `min_gram_rep = 2`, n-gram
lengths 3..12, feeding `a = 1` and then `b = 2` repeatedly, the call
observing the 9th `b` — one occurrence *before* the
`max_token_rep`-th — already returns `true`, and not via the run check
(which is still false there) but via the n-gram check: a long run is
itself a periodic pattern.  This refutes "observe returns true on
exactly the max_token_rep-th occurrence and never earlier". -/
theorem c2_counterexample :
    (RepetitionGuard.new_token (⟨16, 10, 2, 3, 12⟩ : Config)
        (feed ⟨16, 10, 2, 3, 12⟩ (RepetitionGuard.init ⟨16, 10, 2, 3, 12⟩)
          ((1 : Int) :: List.replicate 8 2)) (some 2)).1 = true ∧
    runTriggered (⟨16, 10, 2, 3, 12⟩ : Config)
        (feed ⟨16, 10, 2, 3, 12⟩ (RepetitionGuard.init ⟨16, 10, 2, 3, 12⟩)
          ((1 : Int) :: List.replicate 8 2)) 2 = false ∧
    (9 : Nat) < 10 := by
  decide

/-! ### Claim C6 -/

theorem nodup_getD_ne (l : List Int) (hnd : l.Nodup) (u w : Nat)
    (hu : u < l.length) (hw : w < l.length) (hne : u ≠ w) :
    l.getD u 0 ≠ l.getD w 0 := by
  intro heq
  rw [List.getD_eq_getElem?_getD, List.getElem?_eq_getElem hu,
    List.getD_eq_getElem?_getD, List.getElem?_eq_getElem hw] at heq
  simp only [Option.getD_some] at heq
  have hget : l.get ⟨u, hu⟩ = l.get ⟨w, hw⟩ := by
    simpa using heq
  have hinj := (List.Nodup.get_inj_iff hnd).mp hget
  exact hne (congrArg Fin.val hinj)

theorem jScan_head_false (size : Nat) (hist : List Int) (base x : Int) (p j : Nat)
    (js : List Nat)
    (hne : x ≠ hist.getD (wrapPos size (base - (j : Int) * (p : Int))) 0) :
    (jScan size hist base x p (j :: js)).2 = false := by
  simp only [jScan]
  rw [if_neg hne]

theorem kScan_head_false (size : Nat) (hist : List Int) (idx : Int) (p reps k : Nat)
    (ks : List Nat)
    (hj : (jScan size hist (idx - (k : Int))
      (hist.getD (wrapPos size (idx - (k : Int))) 0) p
      (List.range' 1 (reps - 1))).2 = false) :
    (kScan size hist idx p reps (k :: ks)).2 = false := by
  simp only [kScan]
  rw [hj]
  simp

theorem pScan_false_of_each (cfg : Config) (hist : List Int) (idx : Int) :
    ∀ ps : List Nat,
      (∀ p ∈ ps, (kScan cfg.BUFFER_SIZE hist idx p
        (max (cfg.MAX_TOKEN_REP / p) cfg.MIN_GRAM_REP) (List.range' 1 p)).2 = false) →
      (pScan cfg hist idx ps).2 = false := by
  intro ps
  induction ps with
  | nil => intro _; rfl
  | cons p ps ih =>
    intro h
    simp only [pScan]
    rw [h p (List.mem_cons_self p ps)]
    simp only [Bool.false_eq_true, if_false]
    exact ih (fun q hq => h q (List.mem_cons_of_mem p hq))

/-- In a pairwise-distinct, nonzero context, one call never triggers:
the run check fails (the previous token differs) and for every period
the very first n-gram comparison (offset 1, repetition 1) mismatches. -/
theorem observe_false_of_nodup (cfg : Config) (hv : cfg.Valid)
    (hmgr2 : 2 ≤ cfg.MIN_GRAM_REP) (hhi : cfg.MAX_NGRAM_LEN < cfg.BUFFER_SIZE)
    (ts : List Int) (t : Int) (hnodup : (ts ++ [t]).Nodup) (ht0 : t ≠ 0) :
    (RepetitionGuard.new_token cfg (feed cfg (RepetitionGuard.init cfg) ts)
      (some t)).1 = false := by
  obtain ⟨⟨e, hsz⟩, hmtr, hmgr, hlo1, hlohi⟩ := hv
  have hs2 : 2 ≤ cfg.BUFFER_SIZE := by omega
  have hs : 0 < cfg.BUFFER_SIZE := by omega
  set n := ts.length with hn
  have hlen' : (ts ++ [t]).length = n + 1 := by
    rw [List.length_append, hn]
    rfl
  have hlast : (ts ++ [t]).getD n 0 = t := by
    rw [List.getD_append_right _ _ _ _ (by omega)]
    rw [show n - ts.length = 0 by omega]
    rfl
  have hrt : runTriggered cfg (feed cfg (RepetitionGuard.init cfg) ts) t = false := by
    rcases Nat.eq_zero_or_pos n with h0 | hpos
    · have hmh1 : postMh cfg (feed cfg (RepetitionGuard.init cfg) ts) = 1 := by
        rw [feed_postMh cfg hs ts]
        omega
      rw [runTriggered, runHit, hmh1]
      rfl
    · have hprev := feed_prevTok cfg hs ts t
      have hb2 : backVal cfg.BUFFER_SIZE (ts ++ [t]) 2 = (ts ++ [t]).getD (n - 1) 0 := by
        rw [backVal_small _ _ 2 (by omega) hs2, if_pos (by omega)]
        congr 1
        omega
      have hne2 : (ts ++ [t]).getD (n - 1) 0 ≠ t := by
        intro heq
        refine nodup_getD_ne (ts ++ [t]) hnodup (n - 1) n (by omega) (by omega)
          (by omega) ?_
        rw [heq, hlast]
      rw [runTriggered, runHit, hprev, hb2]
      rw [decide_eq_false_iff_not.mpr hne2, Bool.and_false, Bool.false_and]
  have hx1 : readAt cfg.BUFFER_SIZE
      (postHist (feed cfg (RepetitionGuard.init cfg) ts) t)
      ((postIdx cfg (feed cfg (RepetitionGuard.init cfg) ts) : Int) - ((1 : Nat) : Int))
        = t := by
    rw [feed_read_post cfg hs ts t 1 (by omega)]
    rw [backVal_small _ _ 1 (by omega) (by omega), if_pos (by omega)]
    rw [show (ts ++ [t]).length - 1 = n by omega]
    exact hlast
  have hngram : ngramTriggered cfg (postHist (feed cfg (RepetitionGuard.init cfg) ts) t)
      (postIdx cfg (feed cfg (RepetitionGuard.init cfg) ts)) = false := by
    rw [ngramTriggered, ngramScan]
    apply pScan_false_of_each
    intro p hp
    obtain ⟨hp1, hp2⟩ := List.mem_range'_1.mp hp
    have hple : p ≤ cfg.MAX_NGRAM_LEN := by omega
    have hppos : 1 ≤ p := by omega
    set reps := max (cfg.MAX_TOKEN_REP / p) cfg.MIN_GRAM_REP with hreps
    have hreps2 : 2 ≤ reps := le_trans hmgr2 (le_max_right _ _)
    obtain ⟨p', rfl⟩ : ∃ p', p = p' + 1 := ⟨p - 1, by omega⟩
    rw [List.range'_succ]
    apply kScan_head_false
    obtain ⟨r', hr'⟩ : ∃ r', reps - 1 = r' + 1 := ⟨reps - 2, by omega⟩
    rw [hr', List.range'_succ]
    have hxval : (postHist (feed cfg (RepetitionGuard.init cfg) ts) t).getD
        (wrapPos cfg.BUFFER_SIZE
          ((postIdx cfg (feed cfg (RepetitionGuard.init cfg) ts) : Int)
            - ((1 : Nat) : Int))) 0 = t := hx1
    rw [hxval]
    apply jScan_head_false
    rw [show ((postIdx cfg (feed cfg (RepetitionGuard.init cfg) ts) : Int)
        - ((1 : Nat) : Int) - ((1 : Nat) : Int) * ((p' + 1 : Nat) : Int)) =
      ((postIdx cfg (feed cfg (RepetitionGuard.init cfg) ts) : Int)
        - ((1 + (p' + 1) : Nat) : Int)) by push_cast; ring]
    have hread := feed_read_post cfg hs ts t (1 + (p' + 1)) (by omega)
    rw [readAt] at hread
    rw [hread]
    rw [backVal_small _ _ (1 + (p' + 1)) (by omega) (by omega)]
    by_cases hcase : 1 + (p' + 1) ≤ (ts ++ [t]).length
    · rw [if_pos hcase]
      intro heq
      refine nodup_getD_ne (ts ++ [t]) hnodup ((ts ++ [t]).length - (1 + (p' + 1))) n
        (by omega) (by omega) (by omega) ?_
      rw [← heq, hlast]
    · rw [if_neg hcase]
      exact ht0
  rw [new_token_fst, hrt, hngram]
  simp

/-- Claim C6 (amended): for every valid configuration with
`min_gram_rep ≥ 2` and `max_ngram_len < buffer_size`, feeding a fresh
guard `buffer_size` pairwise-distinct nonzero tokens makes every call
return `false`.  (The original unconditional claim is refuted by the
counterexample: when a checked period length is a multiple of
`buffer_size` the n-gram comparisons compare ring slots with
themselves, and distinct tokens trigger; `min_gram_rep = 1` or a `0`
token colliding with the sentinel also break it.) -/
theorem c6_nonrepeating (cfg : Config) (hv : cfg.Valid)
    (hmgr2 : 2 ≤ cfg.MIN_GRAM_REP) (hhi : cfg.MAX_NGRAM_LEN < cfg.BUFFER_SIZE)
    (ts : List Int) (hlen : ts.length = cfg.BUFFER_SIZE) (hnd : ts.Nodup)
    (h0 : ∀ x ∈ ts, x ≠ 0) :
    ∀ r ∈ triggers cfg (RepetitionGuard.init cfg) ts, r = false := by
  intro r hr
  rw [triggers_eq_map] at hr
  obtain ⟨i, hi, rfl⟩ := List.mem_map.mp hr
  have hi' : i < ts.length := List.mem_range.mp hi
  have htake : ts.take i ++ [ts.getD i 0] = ts.take (i + 1) := by
    rw [List.take_succ]
    congr 1
    rw [List.getD_eq_getElem?_getD, List.getElem?_eq_getElem hi']
    rfl
  apply observe_false_of_nodup cfg hv hmgr2 hhi (ts.take i) (ts.getD i 0)
  · rw [htake]
    exact List.Nodup.sublist (List.take_sublist _ _) hnd
  · apply h0
    rw [List.getD_eq_getElem?_getD, List.getElem?_eq_getElem hi']
    exact List.getElem_mem hi'

theorem c6_nonrepeating_witness :
    triggers (⟨4, 3, 2, 3, 3⟩ : Config)
      (RepetitionGuard.init ⟨4, 3, 2, 3, 3⟩) [1, 2, 3, 4] =
      List.replicate 4 false := by
  have h := c6_nonrepeating ⟨4, 3, 2, 3, 3⟩
    ⟨⟨2, rfl⟩, by decide, by decide, by decide, by decide⟩ (by decide) (by decide)
    [1, 2, 3, 4] (by decide) (by decide) (by decide)
  exact (List.eq_replicate_of_mem h).trans (by decide)

/-- Claim C6 counterexample: with the valid configuration
`buffer_size = 4`, `max_token_rep = 4`, `min_gram_rep = 2`, n-gram
length range 4..4, feeding the four pairwise-distinct tokens
`[1, 2, 3, 4]` triggers on the fourth call: the checked period `p = 4`
is a multiple of the buffer size, so every comparison
`hist[(idx-k) & mask] == hist[(idx-k-4) & mask]` compares a slot with
itself and vacuously matches.  A buffer-size-length sequence of
distinct tokens can trigger, refuting the claim as stated. -/
theorem c6_counterexample :
    ([1, 2, 3, 4] : List Int).Nodup ∧
    ¬ (∀ r ∈ triggers (⟨4, 4, 2, 4, 4⟩ : Config)
        (RepetitionGuard.init ⟨4, 4, 2, 4, 4⟩) [1, 2, 3, 4], r = false) := by
  decide

/-! ### Claim C7 -/

theorem headRun_eq_length (l : List Int) (x : Int) (hx : l.head? = some x)
    (h : headRun l = l.length) : l = List.replicate l.length x := by
  induction l generalizing x with
  | nil => rfl
  | cons y rest ih =>
    rw [List.head?_cons, Option.some_inj] at hx
    subst hx
    rw [headRun_cons] at h
    by_cases hc : rest.head? = some y
    · rw [if_pos hc] at h
      simp only [List.length_cons] at h ⊢
      rw [List.replicate_succ]
      congr 1
      exact ih y hc (by omega)
    · rw [if_neg hc] at h
      simp only [List.length_cons] at h
      have hr0 : rest.length = 0 := by omega
      have hrnil : rest = [] := List.length_eq_zero.mp hr0
      subst hrnil
      rfl

theorem headRun_append_of_lt (l r : List Int) :
    headRun l < l.length → headRun (l ++ r) = headRun l := by
  induction l with
  | nil =>
    intro h
    simp [headRun] at h
  | cons x rest ih =>
    intro h
    cases rest with
    | nil =>
      exfalso
      simp only [headRun, List.length_cons, List.length_nil] at h
      omega
    | cons y rest' =>
      have hcons : (x :: y :: rest') ++ r = x :: ((y :: rest') ++ r) := rfl
      rw [hcons, headRun_cons, headRun_cons]
      have hhead : ((y :: rest') ++ r).head? = some y := rfl
      rw [hhead, List.head?_cons]
      by_cases hxy : some y = some x
      · rw [if_pos hxy, if_pos hxy]
        have hlt : headRun (y :: rest') < (y :: rest').length := by
          rw [headRun_cons, List.head?_cons, if_pos hxy] at h
          simp only [List.length_cons] at h ⊢
          omega
        rw [ih hlt]
      · rw [if_neg hxy, if_neg hxy]

theorem getLast?_eq_getD (l : List Int) (hne : l ≠ []) :
    l.getLast? = some (l.getD (l.length - 1) 0) := by
  rw [List.getLast?_eq_getElem?, List.getD_eq_getElem?_getD]
  have hlt : l.length - 1 < l.length := by
    have := List.length_pos.mpr hne
    omega
  rw [List.getElem?_eq_getElem hlt]
  rfl

/-- Claim C7 (amended): the trigger outcome of the final call on a
sequence of length at least `buffer_size` is determined by the last
`buffer_size` tokens alone, *provided those tokens are not all
identical*: for any two prefixes `pre1`, `pre2` followed by the same
window `w ++ [t]` of `buffer_size` tokens that is not constantly `t`,
the final calls agree — tokens overwritten in the ring never influence
the ring reads.  (Without the proviso the claim fails: the run counter
is unbounded state that survives buffer wraparound, see the
counterexample.) -/
theorem c7_wraparound (cfg : Config) (hv : cfg.Valid)
    (pre1 pre2 w : List Int) (t : Int)
    (hw : w.length + 1 = cfg.BUFFER_SIZE)
    (hnc : w ≠ List.replicate (cfg.BUFFER_SIZE - 1) t) :
    (RepetitionGuard.new_token cfg
        (feed cfg (RepetitionGuard.init cfg) (pre1 ++ w)) (some t)).1 =
      (RepetitionGuard.new_token cfg
        (feed cfg (RepetitionGuard.init cfg) (pre2 ++ w)) (some t)).1 := by
  obtain ⟨⟨e, hsz⟩, hmtr, hmgr, hlo1, hlohi⟩ := hv
  have hs : 0 < cfg.BUFFER_SIZE := by omega
  have hs2 : 2 ≤ cfg.BUFFER_SIZE := by
    rcases Nat.lt_or_ge cfg.BUFFER_SIZE 2 with hlt | hge
    · exfalso
      have hw0 : w.length = 0 := by omega
      have hwnil : w = [] := List.length_eq_zero.mp hw0
      have hrep : List.replicate (cfg.BUFFER_SIZE - 1) t = [] := by
        rw [show cfg.BUFFER_SIZE - 1 = 0 by omega]
        rfl
      exact hnc (by rw [hwnil, hrep])
    · exact hge
  have hwin : (w ++ [t]).length = cfg.BUFFER_SIZE := by
    rw [List.length_append]
    simp only [List.length_singleton]
    omega
  have hwne : w ≠ [] := by
    intro hwnil
    rw [hwnil] at hw
    simp at hw
    omega
  -- the shared per-prefix facts
  have hfacts : ∀ pre : List Int,
      postMh cfg (feed cfg (RepetitionGuard.init cfg) (pre ++ w)) = cfg.BUFFER_SIZE ∧
      prevTok cfg (feed cfg (RepetitionGuard.init cfg) (pre ++ w)) t =
        backVal cfg.BUFFER_SIZE (w ++ [t]) 2 := by
    intro pre
    constructor
    · rw [feed_postMh cfg hs]
      rw [List.length_append]
      omega
    · rw [feed_prevTok cfg hs, List.append_assoc,
        backVal_append_window _ hs pre (w ++ [t]) hwin]
  obtain ⟨hmhA, hprevA⟩ := hfacts pre1
  obtain ⟨hmhB, hprevB⟩ := hfacts pre2
  have hhit : runHit cfg (feed cfg (RepetitionGuard.init cfg) (pre1 ++ w)) t =
      runHit cfg (feed cfg (RepetitionGuard.init cfg) (pre2 ++ w)) t := by
    rw [runHit, runHit, hmhA, hmhB, hprevA, hprevB]
  have hpostrun : postRun cfg (feed cfg (RepetitionGuard.init cfg) (pre1 ++ w)) t =
      postRun cfg (feed cfg (RepetitionGuard.init cfg) (pre2 ++ w)) t := by
    rw [postRun, postRun, hhit]
    by_cases hh : runHit cfg (feed cfg (RepetitionGuard.init cfg) (pre2 ++ w)) t = true
    · rw [hh, if_pos rfl, if_pos rfl]
      -- the run continues through the window: its length is visible in `w`
      have hlastw : backVal cfg.BUFFER_SIZE (w ++ [t]) 2 = t := by
        have h2 := hh
        rw [runHit, Bool.and_eq_true] at h2
        rw [hprevB] at h2
        exact decide_eq_true_eq.mp h2.2
      have hlast_t : w.getLast? = some t := by
        rw [backVal_small _ _ 2 (by omega) hs2, if_pos (by omega)] at hlastw
        rw [hwin] at hlastw
        rw [List.getD_append _ _ _ _ (by omega)] at hlastw
        rw [getLast?_eq_getD w hwne]
        rw [show w.length - 1 = cfg.BUFFER_SIZE - 2 by omega]
        rw [hlastw]
      have hhr : headRun w.reverse < w.reverse.length := by
        rcases Nat.lt_or_ge (headRun w.reverse) w.reverse.length with hlt | hge
        · exact hlt
        · exfalso
          have heq : headRun w.reverse = w.reverse.length :=
            Nat.le_antisymm (headRun_le_length _) hge
          have hhead : w.reverse.head? = some t := by
            rw [List.head?_reverse]
            exact hlast_t
          have hrepl := headRun_eq_length w.reverse t hhead heq
          rw [List.length_reverse] at hrepl
          apply hnc
          have : w.reverse.reverse = (List.replicate w.length t).reverse := by
            rw [hrepl]
          rw [List.reverse_reverse, List.reverse_replicate] at this
          rw [this]
          congr 1
          omega
      have hsfx : ∀ pre : List Int, suffixRun (pre ++ w) = headRun w.reverse := by
        intro pre
        rw [suffixRun, List.reverse_append]
        exact headRun_append_of_lt w.reverse pre.reverse hhr
      have hrc : (feed cfg (RepetitionGuard.init cfg)
          (pre1 ++ w)).consecutive_token_run_count =
          (feed cfg (RepetitionGuard.init cfg)
            (pre2 ++ w)).consecutive_token_run_count := by
        rw [feed_run cfg hs2, feed_run cfg hs2, hsfx pre1, hsfx pre2]
      rw [hrc]
    · rw [Bool.not_eq_true] at hh
      rw [hh]
      simp only [Bool.false_eq_true, if_false]
  have hrt : runTriggered cfg (feed cfg (RepetitionGuard.init cfg) (pre1 ++ w)) t =
      runTriggered cfg (feed cfg (RepetitionGuard.init cfg) (pre2 ++ w)) t := by
    rw [runTriggered, runTriggered, hhit, hpostrun]
  rw [new_token_fst, new_token_fst, hrt, hmhA, hmhB]
  have hng : ngramTriggered cfg
      (postHist (feed cfg (RepetitionGuard.init cfg) (pre1 ++ w)) t)
      (postIdx cfg (feed cfg (RepetitionGuard.init cfg) (pre1 ++ w))) =
      ngramTriggered cfg
      (postHist (feed cfg (RepetitionGuard.init cfg) (pre2 ++ w)) t)
      (postIdx cfg (feed cfg (RepetitionGuard.init cfg) (pre2 ++ w))) := by
    apply ngramTriggered_congr cfg cfg rfl rfl rfl rfl hmgr _ _ _ _
      (max cfg.MAX_TOKEN_REP cfg.MIN_GRAM_REP * cfg.MAX_NGRAM_LEN)
    · intro d hd1 _
      rw [feed_read_post_window cfg hs pre1 w t hw d hd1,
        feed_read_post_window cfg hs pre2 w t hw d hd1]
    · intro p hplo hphi
      exact Nat.mul_le_mul
        (max_le_max (Nat.div_le_self cfg.MAX_TOKEN_REP p) (le_refl cfg.MIN_GRAM_REP))
        hphi
  rw [hng]

theorem c7_wraparound_witness :
    (RepetitionGuard.new_token (⟨4, 3, 2, 3, 3⟩ : Config)
        (feed ⟨4, 3, 2, 3, 3⟩ (RepetitionGuard.init ⟨4, 3, 2, 3, 3⟩)
          ([] ++ [1, 2, 6])) (some 6)).1 =
      (RepetitionGuard.new_token (⟨4, 3, 2, 3, 3⟩ : Config)
        (feed ⟨4, 3, 2, 3, 3⟩ (RepetitionGuard.init ⟨4, 3, 2, 3, 3⟩)
          ([7, 8] ++ [1, 2, 6])) (some 6)).1 :=
  c7_wraparound ⟨4, 3, 2, 3, 3⟩
    ⟨⟨2, rfl⟩, by decide, by decide, by decide, by decide⟩ [] [7, 8] [1, 2, 6] 6
    (by decide) (by decide)

/-- Claim C7 counterexample: with the valid configuration
`buffer_size = 2`, `max_token_rep = 4`, `min_gram_rep = 2`, n-gram
lengths 3..12, the sequences `[5, 5, 5, 5]` and `[9, 5, 5]` both have
length at least 2 and the same last two tokens `[5, 5]`, yet their
final calls disagree: the first returns `true` (its run counter, fed by
tokens long since overwritten in the two-slot ring, reaches 4) and the
second returns `false`.  An overwritten token thus still influences a
later result — through the run counter — refuting the claim as
stated. -/
theorem c7_counterexample :
    (RepetitionGuard.new_token (⟨2, 4, 2, 3, 12⟩ : Config)
        (feed ⟨2, 4, 2, 3, 12⟩ (RepetitionGuard.init ⟨2, 4, 2, 3, 12⟩)
          [5, 5, 5]) (some 5)).1 = true ∧
    (RepetitionGuard.new_token (⟨2, 4, 2, 3, 12⟩ : Config)
        (feed ⟨2, 4, 2, 3, 12⟩ (RepetitionGuard.init ⟨2, 4, 2, 3, 12⟩)
          [9, 5]) (some 5)).1 = false ∧
    ([5, 5, 5, 5] : List Int).drop 2 = [5, 5] ∧
    ([9, 5, 5] : List Int).drop 1 = [5, 5] := by
  decide
